import Mathlib

/-!
Verification development for the ULAC core (universal atrial coordinates):
a shallow embedding in Lean 4 of the geometric/graph algorithms of
src/ulac/construction_base.py and src/ulac/construction.py, together with
theorems settling the frozen specification claims.

Modelling conventions:
* numpy float64 values are modelled as exact rationals; Euclidean edge
  lengths (np.linalg.norm of coordinate differences) are abstracted by an
  explicit edge-length function passed as a parameter, since square roots
  are irrational while all claims under study concern the exact arithmetic
  structure of the algorithms.
* numpy integer arrays of vertex indices are modelled as lists over Int
  (vertex ids) or Nat (positions / face indices).
* Python exceptions are modelled by Option/Except return types.
* Python list.pop() / append() stacks are modelled with the list head as
  the top of the stack (same LIFO discipline, mirrored representation).
* while-loops whose termination is part of what is being verified are
  modelled with an explicit fuel parameter; running out of fuel yields
  none, and the corresponding termination claim proves the fuel bound used
  by the top-level wrapper suffices.
-/

namespace ULAC

/-! ## Data model (construction_base.py dataclasses) -/

/-- A ParameterizedPath: vertex indices plus parallel relative-length values. -/
structure PPath where
  inds : List ℤ
  relative_lengths : List ℚ
deriving Repr, DecidableEq

/-- A UACPath: a ParameterizedPath plus the two coordinate component arrays. -/
structure UACPathL where
  inds : List ℤ
  relative_lengths : List ℚ
  alpha : List ℚ
  beta : List ℚ
deriving Repr, DecidableEq

/-! ## numpy primitives used by the code -/

/-- Model of np.roll: the element at index i moves to index (i + shift) mod n.
Equivalently the result at index j is the input at index (j - shift) mod n,
which is a left rotation by ((-shift) mod n). -/
def npRoll {α : Type} (l : List α) (shift : ℤ) : List α :=
  l.rotate (((-shift) % (l.length : ℤ)).toNat)

/-- Stable insertion of an index into an index list sorted by a key function
(ascending); ties keep earlier-inserted elements in front. Together with
npArgsort below this models np.argsort, which for pairwise-distinct keys
returns the unique key-sorted permutation of indices. -/
def argInsert {β : Type} [LinearOrder β] (key : ℕ → β) (i : ℕ) : List ℕ → List ℕ
  | [] => [i]
  | j :: t => if key i < key j then i :: j :: t else j :: argInsert key i t

/-- Model of np.argsort on a list of keys: the list of positions
0, ..., n-1 sorted by ascending key. -/
def npArgsort {β : Type} [LinearOrder β] [Inhabited β] (keys : List β) : List ℕ :=
  (List.range keys.length).foldr (argInsert fun i => keys.getD i default) []

/-- Model of np.isclose with the numpy defaults rtol = 1e-5, atol = 1e-8:
np.isclose(a, b) holds iff |a - b| <= atol + rtol * |b|. -/
def npIsClose (a b : ℚ) : Bool :=
  |a - b| ≤ 1 / 100000000 + (1 / 100000) * |b|

/-- Model of np.intersect1d: the sorted list of distinct values occurring in
both inputs. -/
def npIntersect1d (a b : List ℤ) : List ℤ :=
  ((a.filter (fun x => decide (x ∈ b))).dedup).foldr
    (fun x acc => acc.orderedInsert (· ≤ ·) x) []

/-! ## Path Parameterizer (construction_base.py, parameterize_path) -/

/-- Model of _reorder_path_by_markers: rotate the path so it starts at the
vertex of the first marker; if the argsort of the marker positions along the
rotated path differs from the argsort of the marker target values, replace
the path by np.roll(np.flip(path), 1) (reversal keeping the start vertex)
and recompute the marker positions. Returns the reordered path and the
positions of the markers in it. -/
def reorder_path_by_markers (path : List ℤ) (marker_inds : List ℤ)
    (marker_values : List ℚ) : List ℤ × List ℕ :=
  let loc : ℕ := path.indexOf marker_inds.headI
  let ordered := npRoll path (-(loc : ℤ))
  let relative_marker_inds := marker_inds.map (fun m => ordered.indexOf m)
  if npArgsort relative_marker_inds = npArgsort marker_values then
    (ordered, relative_marker_inds)
  else
    let flipped := npRoll ordered.reverse 1
    (flipped, marker_inds.map (fun m => flipped.indexOf m))

/-- The data flowing into the arc-length computation after the
closed-path handling step of _parameterize_by_relative_length. -/
structure ClosedPathData (P : Type) where
  cpath : List ℤ
  ccoords : List P
  cinds : List ℕ
  cvalues : List ℚ

/-- Model of the closed-path handling in _parameterize_by_relative_length:
if 1.0 is not among the marker values, append the first vertex at the end of
the path (duplicating its coordinate), record the new last position as an
additional marker position and append the synthetic target value 1.0. -/
def closePathIfOpen {P : Type} [Inhabited P] (path : List ℤ) (coords : List P)
    (relative_marker_inds : List ℕ) (marker_values : List ℚ) : ClosedPathData P :=
  if (1 : ℚ) ∈ marker_values then
    ⟨path, coords, relative_marker_inds, marker_values⟩
  else
    ⟨path ++ [path.headI], coords ++ [coords.headI],
      relative_marker_inds ++ [path.length], marker_values ++ [1]⟩

/-- Cumulative arc length: np.insert(np.cumsum(edge lengths), 0, 0.0),
with the edge lengths given by the distance function on consecutive
coordinates. -/
def cumulativeLengths {P : Type} (dist : P → P → ℚ) (coords : List P) : List ℚ :=
  (List.zipWith dist coords coords.tail).scanl (· + ·) 0

/-- The per-index value written by the segment from marker position s to
marker position e with target values sv, ev: the cumulative length shifted
to start at 0 and rescaled linearly onto [sv, ev]. -/
def segmentValue (cum : List ℚ) (s e : ℕ) (sv ev : ℚ) (j : ℕ) : ℚ :=
  sv + (ev - sv) * (cum.getD j 0 - cum.getD s 0) / (cum.getD e 0 - cum.getD s 0)

/-- Model of the numpy slice assignment
segmented_points[start : end + 1] = relative_lengths. -/
def writeSegment (arr : List ℚ) (s e : ℕ) (f : ℕ → ℚ) : List ℚ :=
  (List.range arr.length).map (fun j => if s ≤ j ∧ j ≤ e then f j else arr.getD j 0)

/-- Model of the segment loop of _parameterize_by_relative_length: for each
consecutive pair of (marker position, target value) entries, overwrite the
slice between the two marker positions with the rescaled cumulative lengths.
The Python loop runs i = 0 .. num_segments-1 over
(relative_marker_inds[i], relative_marker_inds[i+1]); here the consecutive
pairs are consumed structurally from the zipped marker list. -/
def applySegments (cum : List ℚ) : List ℚ → List (ℕ × ℚ) → List ℚ
  | arr, [] => arr
  | arr, [_] => arr
  | arr, (s, sv) :: (e, ev) :: rest =>
      applySegments cum (writeSegment arr s e (segmentValue cum s e sv ev)) ((e, ev) :: rest)

/-- Model of _parameterize_by_relative_length. The mesh is abstracted by a
vertex-to-coordinate map and the Euclidean norm of coordinate differences by
the edge-length function dist. -/
def parameterize_by_relative_length {P : Type} [Inhabited P] (dist : P → P → ℚ) (points : ℤ → P)
    (path : List ℤ) (relative_marker_inds : List ℕ) (marker_values : List ℚ) : PPath :=
  let C := closePathIfOpen path (path.map points) relative_marker_inds marker_values
  let cum := cumulativeLengths dist C.ccoords
  ⟨C.cpath, applySegments cum (List.replicate C.cpath.length 0) (C.cinds.zip C.cvalues)⟩

/-- Model of parameterize_path: reorder the raw path by the markers, then
parameterize by relative length. -/
def parameterize_path {P : Type} [Inhabited P] (dist : P → P → ℚ) (points : ℤ → P)
    (path : List ℤ) (marker_inds : List ℤ) (marker_values : List ℚ) : PPath :=
  let r := reorder_path_by_markers path marker_inds marker_values
  parameterize_by_relative_length dist points r.1 r.2 marker_values

/-! ## Coordinate Assigner (construction_base.py, compute_uacs_polyline) -/

/-- The slice l[s : e + 1] of a list (numpy inclusive-end slice as used with
start_ind and end_ind in compute_uacs_polyline). -/
def sliceIncl {α : Type} (l : List α) (s e : ℕ) : List α :=
  (l.drop s).take (e + 1 - s)

/-- Model of np.min on a nonempty array (0 on an empty one, which the code
never feeds it). -/
def listMinD (l : List ℚ) : ℚ :=
  match l with
  | [] => 0
  | x :: t => t.foldl min x

/-- Model of np.max on a nonempty array (0 on an empty one, which the code
never feeds it). -/
def listMaxD (l : List ℚ) : ℚ :=
  match l with
  | [] => 0
  | x :: t => t.foldl max x

/-- One segment of compute_uacs_polyline: locate the first path indices whose
relative length is np.isclose to the two anchor positions, take the index
span between them, rescale the relative lengths of the span onto [0,1] by
its local minimum and range, and interpolate both coordinate components.
When the segment is not the final one, the last entry of every array is
dropped (it reappears as the first entry of the next segment).
Fails (IndexError in Python) when an anchor position is not located. -/
def uacSegment (rl : List ℚ) (inds : List ℤ) (p0 p1 : ℚ) (u0 u1 : ℚ × ℚ)
    (final : Bool) : Option (List ℤ × List ℚ × List ℚ × List ℚ) :=
  match rl.findIdx? (fun x => npIsClose x p0), rl.findIdx? (fun x => npIsClose x p1) with
  | some s, some e =>
      let segment_inds := sliceIncl inds s e
      let path_segment := sliceIncl rl s e
      let scaled := path_segment.map
        (fun x => (x - listMinD path_segment) / (listMaxD path_segment - listMinD path_segment))
      let alpha := scaled.map (fun x => u0.1 + (u1.1 - u0.1) * x)
      let beta := scaled.map (fun x => u0.2 + (u1.2 - u0.2) * x)
      if final then some (segment_inds, alpha, beta, path_segment)
      else some (segment_inds.dropLast, alpha.dropLast, beta.dropLast, path_segment.dropLast)
  | _, _ => none

/-- The segment loop of compute_uacs_polyline over the zipped list of
(anchor position, anchor coordinate) pairs, concatenating the per-segment
arrays. -/
def uacSegments (rl : List ℚ) (inds : List ℤ) :
    List (ℚ × (ℚ × ℚ)) → Option (List ℤ × List ℚ × List ℚ × List ℚ)
  | [] => some ([], [], [], [])
  | [_] => some ([], [], [], [])
  | (p0, u0) :: (p1, u1) :: rest => do
      let s ← uacSegment rl inds p0 p1 u0 u1 (rest.isEmpty)
      let t ← uacSegments rl inds ((p1, u1) :: rest)
      some (s.1 ++ t.1, s.2.1 ++ t.2.1, s.2.2.1 ++ t.2.2.1, s.2.2.2 ++ t.2.2.2)

/-- Model of compute_uacs_polyline: piecewise-linear interpolation of the two
coordinate components between consecutive anchors, matched to the path by
relative length. With fewer than two anchors the Python code fails
(np.concatenate of an empty list); with an unlocatable anchor it raises
IndexError; both are modelled by none. -/
def compute_uacs_polyline (path : PPath) (segment_points : List ℚ)
    (segment_uacs : List (ℚ × ℚ)) : Option UACPathL :=
  match segment_points.zip segment_uacs with
  | [] => none
  | [_] => none
  | l@(_ :: _ :: _) =>
      (uacSegments path.relative_lengths path.inds l).map
        (fun r => ⟨r.1, r.2.2.2, r.2.1, r.2.2.1⟩)

/-! ## Boundary Loop Stitcher (construction.py, _concatenate_submesh_boundaries) -/

/-- One coordinate-path segment handed to the stitcher: vertex indices with
the two parallel coordinate arrays. -/
structure BSeg where
  inds : List ℤ
  alpha : List ℚ
  beta : List ℚ
deriving Repr, DecidableEq

instance : Inhabited BSeg := ⟨⟨[], [], []⟩⟩

/-- Reversal of a segment (all three parallel arrays). -/
def BSeg.rev (s : BSeg) : BSeg := ⟨s.inds.reverse, s.alpha.reverse, s.beta.reverse⟩

/-- The last vertex of a segment (segments handled by the code are nonempty). -/
def BSeg.lastV (s : BSeg) : ℤ := s.inds.getLastD 0

/-- Append a segment to the accumulator, dropping the segment's first entry
in all three arrays (the shared junction vertex). -/
def appendDrop (acc s : BSeg) : BSeg :=
  ⟨acc.inds ++ s.inds.tail, acc.alpha ++ s.alpha.tail, acc.beta ++ s.beta.tail⟩

/-- One iteration of the stitcher loop: find the first remaining segment
whose index array contains the accumulator's current last vertex (Python:
membership test current_end_point in inds, anywhere in the array); reverse
it when its last vertex equals the current endpoint; append it to the
accumulator with its first entry dropped and remove it from the remaining
list. none models the ValueError raised when no remaining segment contains
the endpoint. -/
def stitchStep (acc : BSeg) (rest : List BSeg) : Option (BSeg × List BSeg) :=
  match rest.findIdx? (fun s => decide (acc.lastV ∈ s.inds)) with
  | none => none
  | some i =>
      let s := rest.getD i default
      let s' := if s.lastV = acc.lastV then s.rev else s
      some (appendDrop acc s', rest.eraseIdx i)

/-- The final duplicate-endpoint removal: if the accumulator's first and last
vertices coincide, drop the last entry of all three arrays. -/
def closeDedup (acc : BSeg) : BSeg :=
  if acc.inds.headI = acc.lastV then
    ⟨acc.inds.dropLast, acc.alpha.dropLast, acc.beta.dropLast⟩
  else acc

/-- The stitcher loop, with fuel equal to the number of remaining segments
(each iteration removes exactly one, so the fuel is exact). -/
def stitchLoop : ℕ → BSeg → List BSeg → Option BSeg
  | _, acc, [] => some (closeDedup acc)
  | 0, _, _ :: _ => none
  | n + 1, acc, rest =>
      match stitchStep acc rest with
      | none => none
      | some (a, r) => stitchLoop n a r

/-- Model of _concatenate_submesh_boundaries: pop the first segment as the
accumulator and run the stitcher loop on the rest. -/
def concatenate_submesh_boundaries (segs : List BSeg) : Option BSeg :=
  match segs with
  | [] => none
  | s :: rest => stitchLoop rest.length s rest

/-! ## Artifact Store (construction.py, get_dict_entry / set_dict_entry) -/

/-- A nested Python dict as used for the artifact store: interior nodes are
dicts (association lists in insertion order, keys unique), leaves hold
artifact values. -/
inductive DTree (α : Type) where
  | leaf : α → DTree α
  | node : List (String × DTree α) → DTree α

/-- The Python exception kinds relevant to the dict helpers. -/
inductive PyErr where
  | keyError
  | typeError
  | indexError
deriving Repr, DecidableEq

/-- Model of the Python dict key lookup (keys are unique, insertion order). -/
def dLookup {α : Type} (k : String) : List (String × DTree α) → Option (DTree α)
  | [] => none
  | (k', t) :: rest => if k' = k then some t else dLookup k rest

/-- Model of operator.getitem on a dict (KeyError when the key is absent;
indexing a non-dict artifact with a string key is a TypeError). -/
def dGet {α : Type} (k : String) : DTree α → Except PyErr (DTree α)
  | .leaf _ => .error .typeError
  | .node l =>
      match dLookup k l with
      | some t => .ok t
      | none => .error .keyError

/-- Model of get_dict_entry: functools.reduce(operator.getitem, key_sequence,
data_dict). -/
def get_dict_entry {α : Type} : List String → DTree α → Except PyErr (DTree α)
  | [], t => .ok t
  | k :: ks, t => dGet k t >>= get_dict_entry ks

/-- Model of the Python dict item assignment d[k] = v: replace the value at
an existing key in place, append a new key at the end. -/
def dSet {α : Type} (k : String) (v : DTree α) :
    List (String × DTree α) → List (String × DTree α)
  | [] => [(k, v)]
  | (k', t) :: rest => if k' = k then (k', v) :: rest else (k', t) :: dSet k v rest

/-- Model of set_dict_entry: resolve the prefix key_sequence[:-1] by repeated
getitem (KeyError when a prefix key is absent), then assign at the final key
(which inserts when the final key is absent). The functional update
reconstructs the spine the in-place Python assignment mutates. -/
def set_dict_entry {α : Type} : List String → DTree α → α → Except PyErr (DTree α)
  | [], _, _ => .error .indexError
  | [k], t, v =>
      match t with
      | .leaf _ => .error .typeError
      | .node l => .ok (.node (dSet k (.leaf v) l))
  | k :: k' :: ks, t, v =>
      match t with
      | .leaf _ => .error .typeError
      | .node l =>
          match dLookup k l with
          | none => .error .keyError
          | some sub => (set_dict_entry (k' :: ks) sub v).map (fun s => .node (dSet k s l))

/-- A key sequence that resolves to a leaf of the store (the key sequences
enumerated by nested_dict_keys). -/
def IsLeafSeq {α : Type} (ks : List String) (t : DTree α) : Prop :=
  ∃ a, get_dict_entry ks t = .ok (.leaf a)

/-! ## Constrained Path Router (construction_base.py,
construct_shortest_path_between_subsets) -/

/-- An edge of the admissibility-filtered graph together with its length. -/
abbrev WEdge := (ℕ × ℕ) × ℚ

/-- The admissibility filter: an edge is removed when it touches the
inadmissible-contact set with either endpoint, or lies with both endpoints
in the inadmissible-along set. np.delete of the offending index set keeps
exactly the complying edges in order. -/
def admissibleEdges (edges : List (ℕ × ℕ)) (lengths : List ℚ)
    (contact along : List ℕ) : List WEdge :=
  (edges.zip lengths).filter (fun e =>
    !(decide (e.1.1 ∈ contact) || decide (e.1.2 ∈ contact)) &&
    !(decide (e.1.1 ∈ along) && decide (e.1.2 ∈ along)))

/-- The admissible-graph neighbors of a vertex (with edge weights), in edge
order; both orientations of each undirected edge. -/
def wNeighbors (adm : List WEdge) (v : ℕ) : List (ℕ × ℚ) :=
  adm.filterMap (fun e =>
    if e.1.1 = v then some (e.1.2, e.2)
    else if e.1.2 = v then some (e.1.1, e.2) else none)

/-- All weighted simple paths from s to t in the admissible graph avoiding
the given vertex set, as (vertex list, total length) pairs. The fuel bounds
the path length; any bound of at least the number of vertices enumerates
every simple path. -/
def simplePaths (adm : List WEdge) : ℕ → List ℕ → ℕ → ℕ → List (List ℕ × ℚ)
  | 0, _, _, _ => []
  | fuel + 1, avoid, s, t =>
      if s = t then [([s], 0)]
      else
        (wNeighbors adm s).flatMap (fun nw =>
          if nw.1 ∈ avoid then []
          else
            (simplePaths adm fuel (s :: avoid) nw.1 t).map
              (fun pw => (s :: pw.1, nw.2 + pw.2)))

/-- Enough fuel to enumerate every simple path of the admissible graph:
one more than twice the edge count bounds the number of distinct vertices,
hence the length of any simple path. -/
def pathFuel (adm : List WEdge) : ℕ := 2 * adm.length + 2

/-- Model of igraph Graph.distances for one source/target pair: the minimum
total length over all (simple) paths, none when the target is unreachable
(numpy reads the igraph result as inf). -/
def igraphDistance (adm : List WEdge) (s t : ℕ) : Option ℚ :=
  (simplePaths adm (pathFuel adm) [] s t).foldl
    (fun acc pw =>
      match acc with
      | none => some pw.2
      | some d => some (min d pw.2))
    none

/-- Model of igraph Graph.get_shortest_paths for one source/target pair: a
minimum-length path, or the empty list when the target is unreachable
(igraph returns [[]] and raises no exception). -/
def igraphShortestPath (adm : List WEdge) (s t : ℕ) : List ℕ :=
  match igraphDistance adm s t with
  | none => []
  | some d =>
      match (simplePaths adm (pathFuel adm) [] s t).find? (fun pw => pw.2 = d) with
      | some pw => pw.1
      | none => []

/-- Position of the first minimum of a flattened distance matrix, treating
none as infinity (np.argmin; index 0 when every entry is infinite). -/
def argminFlat (l : List (Option ℚ)) : ℕ :=
  (l.foldl
    (fun (acc : ℕ × ℕ × Option ℚ) d =>
      let better :=
        match acc.2.2, d with
        | none, some _ => true
        | some b, some x => decide (x < b)
        | _, none => false
      if better then (acc.2.1, acc.2.1 + 1, d) else (acc.1, acc.2.1 + 1, acc.2.2))
    (0, 0, none)).1

/-- Model of construct_shortest_path_between_subsets: filter the mesh edge
list by admissibility, compute the distance matrix between the two vertex
subsets, select the pair with minimal distance (row-major argmin, ties and
the all-infinite case resolved to the first entry) and return the
corresponding shortest path. The mesh is abstracted by its unique edge list
with edge lengths (trimesh edges_unique / edges_unique_length). -/
def construct_shortest_path_between_subsets (edges : List (ℕ × ℕ)) (lengths : List ℚ)
    (subset_one subset_two : List ℕ) (contact along : List ℕ) : List ℕ :=
  let adm := admissibleEdges edges lengths contact along
  let dists := subset_one.flatMap (fun s => subset_two.map (fun t => igraphDistance adm s t))
  let flat := argminFlat dists
  let cols := subset_two.length
  let s := subset_one.getD (flat / cols) 0
  let t := subset_two.getD (flat % cols) 0
  igraphShortestPath adm s t

/-! ## Region Extractor (construction_base.py, _extract_region_from_boundary,
the njit flood-fill kernel) -/

/-- The boundary test of the kernel: the shared edge (the sorted
intersection of the two face index triples) lies in some boundary edge,
i.e. both of its first two entries occur in that edge's pair. -/
def isBoundaryShared (boundary_edges : List (ℤ × ℤ)) (shared : List ℤ) : Bool :=
  boundary_edges.any (fun be =>
    (shared.getD 0 0 = be.1 || shared.getD 0 0 = be.2) &&
    (shared.getD 1 0 = be.1 || shared.getD 1 0 = be.2))

/-- The CSR-style neighbor slice of a face: neighbor_faces[start .. end) with
start = new_face_start_inds[c] and end = new_face_start_inds[c+1] (or the
total size for the last face). -/
def neighborSlice (csr : List ℕ) (nbrs : List ℕ) (c : ℕ) : List ℕ :=
  let s := csr.getD c 0
  let e := if c + 1 < csr.length then csr.getD (c + 1) 0 else nbrs.length
  (nbrs.drop s).take (e - s)

/-- Whether the flood fill may expand from face c to face nb: the shared
edge of the two faces is not a boundary edge. -/
def admissibleCrossing (faces : List (List ℤ)) (boundary_edges : List (ℤ × ℤ))
    (c nb : ℕ) : Bool :=
  !(isBoundaryShared boundary_edges (npIntersect1d (faces.getD c []) (faces.getD nb [])))

/-- The flood-fill loop of the njit kernel. Stack top is the list head
(Python pops and appends at the end; same LIFO order). Each iteration pops
one face, marks it visited, and pushes its unvisited neighbors across
non-boundary edges (in reverse neighbor order onto the head, matching the
append order at the tail). Fuel exhaustion yields none; the termination
claim shows the wrapper's fuel suffices. -/
def floodLoop (faces : List (List ℤ)) (boundary_edges : List (ℤ × ℤ))
    (csr : List ℕ) (nbrs : List ℕ) : ℕ → List Bool → List ℕ → Option (List Bool)
  | _, visited, [] => some visited
  | 0, _, _ :: _ => none
  | fuel + 1, visited, cur :: stack =>
      let visited' := visited.set cur true
      let pushes := (neighborSlice csr nbrs cur).filter (fun nb =>
        admissibleCrossing faces boundary_edges cur nb && !(visited'.getD nb false))
      floodLoop faces boundary_edges csr nbrs fuel visited' (pushes.reverse ++ stack)

/-- Model of the njit kernel _extract_region_from_boundary: flood fill from
the seed face and return np.where(visited), the sorted list of visited face
indices. The wrapper fuel is one more than the total neighbor count, which
the termination theorem proves sufficient. -/
def extract_region_kernel (faces : List (List ℤ)) (boundary_edges : List (ℤ × ℤ))
    (csr : List ℕ) (nbrs : List ℕ) (seed : ℕ) : Option (List ℕ) :=
  (floodLoop faces boundary_edges csr nbrs (nbrs.length + 1)
      (List.replicate csr.length false) [seed]).map
    (fun visited => (List.range csr.length).filter (fun i => visited.getD i false))

/-- One admissible flood-fill step: nb is a neighbor of c in the adjacency
structure and the shared edge of the two faces is not a boundary edge. -/
def AdmStep (faces : List (List ℤ)) (boundary_edges : List (ℤ × ℤ))
    (csr : List ℕ) (nbrs : List ℕ) (c nb : ℕ) : Prop :=
  nb ∈ neighborSlice csr nbrs c ∧ admissibleCrossing faces boundary_edges c nb = true

/-- Start of the CSR neighbor range of a face. -/
def nbrStart (csr : List ℕ) (c : ℕ) : ℕ := csr.getD c 0

/-- End of the CSR neighbor range of a face. -/
def nbrEnd (csr : List ℕ) (nbrs : List ℕ) (c : ℕ) : ℕ :=
  if c + 1 < csr.length then csr.getD (c + 1) 0 else nbrs.length

/-- Size of the CSR neighbor range of a face. -/
def rangeSize (csr : List ℕ) (nbrs : List ℕ) (c : ℕ) : ℕ :=
  nbrEnd csr nbrs c - nbrStart csr c

/-- Termination potential for the flood-fill loop: the stack size plus the
total neighbor-range size of the unvisited faces. Every loop iteration
strictly decreases it. -/
def floodPotential (csr : List ℕ) (nbrs : List ℕ) (visited : List Bool)
    (stack : List ℕ) : ℕ :=
  stack.length + (Finset.range csr.length).sum
    (fun f => if visited.getD f false then 0 else rangeSize csr nbrs f)

/-- The LIFO discipline invariant of the flood-fill loop: whenever an
already-visited face sits in the stack, all of its unvisited admissible
neighbors occur above it (closer to the top). It implies that popping an
already-visited face pushes nothing, which bounds the total work. -/
def FloodInv (faces : List (List ℤ)) (boundary_edges : List (ℤ × ℤ))
    (csr : List ℕ) (nbrs : List ℕ) (visited : List Bool) (stack : List ℕ) : Prop :=
  ∀ pre c post, stack = pre ++ c :: post → visited.getD c false = true →
    ∀ nb ∈ neighborSlice csr nbrs c,
      admissibleCrossing faces boundary_edges c nb = true →
      visited.getD nb false = false → nb ∈ pre

/-! # Theorems -/

/-! ## C1: the Constrained Path Router on disconnected subsets -/

/-! ## Cyclic loop structure (hypotheses of the stitcher claims) -/

/-- Two oriented arcs link: the last vertex of the first is the first vertex
of the second. -/
def linked (a b : List ℤ) : Prop := a.getLastD 0 = b.headD 0

/-- The vertex loop of a cyclic arc decomposition: the concatenation of all
arcs with the duplicated junction vertices dropped. -/
def arcGlue (arcs : List (List ℤ)) : List ℤ := (arcs.map List.dropLast).flatten

/-- A list of oriented arcs forming a single closed loop: nonempty, every
arc has at least two vertices, consecutive arcs share their junction
vertex, the last arc links back to the first, and no vertex appears twice
in the glued loop. -/
def CyclicArcs (arcs : List (List ℤ)) : Prop :=
  arcs ≠ [] ∧ (∀ a ∈ arcs, 2 ≤ a.length) ∧ arcs.Chain' linked ∧
    linked (arcs.getLastD []) (arcs.headD []) ∧ (arcGlue arcs).Nodup

/-- A segment carries an arc in either orientation. -/
def OrientOf (x a : List ℤ) : Prop := x = a ∨ x = a.reverse

/-- The segments carry exactly the given arcs, in any order and with
arbitrary per-segment orientation. -/
def MatchUp (segs : List BSeg) (arcs : List (List ℤ)) : Prop :=
  ∃ arcs2, List.Forall₂ OrientOf (segs.map BSeg.inds) arcs2 ∧ arcs2.Perm arcs

/-- The vertex path covered by a consumed prefix of arcs: the glued loop so
far plus the final junction vertex. -/
def chainGlue (arcs : List (List ℤ)) : List ℤ :=
  arcGlue arcs ++ [(arcs.getLastD []).getLastD 0]

/-- C1: the claim states that whenever the admissibility-filtered graph has
no finite-length path between the two subsets, the Constrained Path Router
fails with a disconnected-subsets error and never silently returns an empty
path. The code does the opposite: igraph reports an infinite distance and
returns the empty vertex list for the unreachable pair, and
construct_shortest_path_between_subsets passes that empty path through
without raising. On the mesh edge graph 0-1-2-3 with unit lengths, start
subset {0}, end subset {3} and inadmissible-contact set {1}, the filtered
graph keeps only the edge 2-3, the distance between the subsets is
infinite (modelled as none), and the function returns the empty path. -/
theorem C1_disconnected_returns_empty_path :
    construct_shortest_path_between_subsets [(0,1),(1,2),(2,3)] [1,1,1] [0] [3] [1] [] = [] ∧
    igraphDistance (admissibleEdges [(0,1),(1,2),(2,3)] [1,1,1] [1] []) 0 3 = none :=
  ⟨rfl, rfl⟩

/-! ## C3: the Boundary Loop Stitcher step -/

/-- C3 counterexample: the claim states the stitcher appends only segments
whose first or last vertex equals the accumulator's current last vertex and
fails otherwise. The code instead searches for the endpoint anywhere in a
remaining segment (Python: current_end_point in inds). With segments
[1,2] and [3,2,4] the endpoint 2 of the accumulator occurs only in the
interior of [3,2,4], whose first vertex is 3 and last vertex is 4, so per
the claim the stitcher must fail with a malformed-loop error; the code
instead appends it unreversed and returns [1,2,2,4] successfully. -/
theorem C3_counterexample_interior_match :
    concatenate_submesh_boundaries
        [⟨[1,2],[0,0],[0,0]⟩, ⟨[3,2,4],[0,0,0],[0,0,0]⟩] =
      some ⟨[1,2,2,4],[0,0,0,0],[0,0,0,0]⟩ ∧
    ([3,2,4] : List ℤ).headI ≠ 2 ∧ ([3,2,4] : List ℤ).getLastD 0 ≠ 2 :=
  ⟨rfl, by decide, by decide⟩

/-- C3 (amended): at every step of the Boundary Loop Stitcher, the appended
segment is the first remaining segment that contains the accumulator's
current last vertex anywhere in its index array (not necessarily at its
first or last position); it is reversed in all three parallel arrays exactly
when its last vertex equals the current endpoint, appended with its first
entry dropped, and removed from the remaining list; and the step fails with
the malformed-loop error exactly when no remaining segment contains the
current endpoint. -/
theorem C3_stitchStep_spec (acc : BSeg) (rest : List BSeg) :
    (stitchStep acc rest = none ↔ ∀ s ∈ rest, acc.lastV ∉ s.inds) ∧
    (∀ a r, stitchStep acc rest = some (a, r) →
      ∃ i, ∃ hi : i < rest.length,
        acc.lastV ∈ rest[i].inds ∧
        (∀ j, j < i → acc.lastV ∉ (rest.getD j default).inds) ∧
        a = appendDrop acc
          (if rest[i].lastV = acc.lastV then rest[i].rev else rest[i]) ∧
        r = rest.take i ++ rest.drop (i + 1)) := by
  constructor
  · constructor
    · intro hnone
      rw [stitchStep] at hnone
      cases hfind : rest.findIdx? (fun s => decide (acc.lastV ∈ s.inds)) with
      | none =>
          intro s hs
          have := List.findIdx?_eq_none_iff.mp hfind s hs
          simpa using this
      | some i => rw [hfind] at hnone; simp at hnone
    · intro hall
      rw [stitchStep]
      have : rest.findIdx? (fun s => decide (acc.lastV ∈ s.inds)) = none :=
        List.findIdx?_eq_none_iff.mpr (fun s hs => by simpa using hall s hs)
      rw [this]
  · intro a r hsome
    rw [stitchStep] at hsome
    cases hfind : rest.findIdx? (fun s => decide (acc.lastV ∈ s.inds)) with
    | none => rw [hfind] at hsome; simp at hsome
    | some i =>
        rw [hfind] at hsome
        simp only [Option.some.injEq, Prod.mk.injEq] at hsome
        obtain ⟨hi, hp, hbefore⟩ := List.findIdx?_eq_some_iff_getElem.mp hfind
        refine ⟨i, hi, by simpa using hp, ?_, ?_, ?_⟩
        · intro j hj
          have hjlen : j < rest.length := lt_trans hj hi
          have := hbefore j hj
          simp only [decide_eq_true_eq] at this
          rw [List.getD_eq_getElem?_getD, List.getElem?_eq_getElem hjlen]
          simpa using this
        · rw [← hsome.1]
          have hget : rest.getD i default = rest[i] := by
            rw [List.getD_eq_getElem?_getD, List.getElem?_eq_getElem hi]
            rfl
          rw [hget]
        · rw [← hsome.2, List.eraseIdx_eq_take_drop_succ]

/-- Witness for C3 at a concrete step: the accumulator [1,2] finds the
segment [2,3] (which contains the endpoint 2 at its head), appends it with
the head dropped and leaves no remaining segments. -/
theorem C3_witness :
    ∃ i, ∃ hi : i < ([⟨[2,3],[0,0],[0,0]⟩] : List BSeg).length,
      (⟨[1,2],[0,0],[0,0]⟩ : BSeg).lastV ∈ ([⟨[2,3],[0,0],[0,0]⟩] : List BSeg)[i].inds ∧
      (∀ j, j < i → (⟨[1,2],[0,0],[0,0]⟩ : BSeg).lastV ∉
        (([⟨[2,3],[0,0],[0,0]⟩] : List BSeg).getD j default).inds) ∧
      (⟨[1,2,3],[0,0,0],[0,0,0]⟩ : BSeg) = appendDrop ⟨[1,2],[0,0],[0,0]⟩
        (if ([⟨[2,3],[0,0],[0,0]⟩] : List BSeg)[i].lastV =
            (⟨[1,2],[0,0],[0,0]⟩ : BSeg).lastV then
          ([⟨[2,3],[0,0],[0,0]⟩] : List BSeg)[i].rev
        else ([⟨[2,3],[0,0],[0,0]⟩] : List BSeg)[i]) ∧
      ([] : List BSeg) = ([⟨[2,3],[0,0],[0,0]⟩] : List BSeg).take i ++
        ([⟨[2,3],[0,0],[0,0]⟩] : List BSeg).drop (i + 1) :=
  (C3_stitchStep_spec ⟨[1,2],[0,0],[0,0]⟩ [⟨[2,3],[0,0],[0,0]⟩]).2
    ⟨[1,2,3],[0,0,0],[0,0,0]⟩ [] rfl

/-! ## C8: the closed-path handling of the Path Parameterizer -/

/-- C8: during parameterization, exactly when the largest marker target
value is not 1.0, the path is treated as closed: its first vertex is
appended at the end (with the same coordinate entry appended to the
coordinate array), the new final position path.length is recorded as a
marker position, and the synthetic target value 1.0 is appended; when the
largest target value is 1.0, path, coordinates, marker positions and
target values are all passed on unchanged. The code tests membership of
1.0 in the target values, which under the documented range bound
(all targets at most 1) is equivalent to the maximum being 1.0. -/
theorem C8_close_iff_max_ne_one {P : Type} [Inhabited P]
    (path : List ℤ) (coords : List P) (relative_marker_inds : List ℕ)
    (marker_values : List ℚ)
    (hub : ∀ v ∈ marker_values, v ≤ 1) :
    (marker_values.maximum ≠ some 1 →
      closePathIfOpen path coords relative_marker_inds marker_values =
        ⟨path ++ [path.headI], coords ++ [coords.headI],
          relative_marker_inds ++ [path.length], marker_values ++ [1]⟩) ∧
    (marker_values.maximum = some 1 →
      closePathIfOpen path coords relative_marker_inds marker_values =
        ⟨path, coords, relative_marker_inds, marker_values⟩) := by
  have key : (1 : ℚ) ∈ marker_values ↔ marker_values.maximum = some 1 := by
    constructor
    · intro h1
      exact List.maximum_eq_coe_iff.mpr ⟨h1, hub⟩
    · intro h
      exact (List.maximum_eq_coe_iff.mp h).1
  constructor
  · intro hmax
    rw [closePathIfOpen, if_neg (fun hmem => hmax (key.mp hmem))]
  · intro hmax
    rw [closePathIfOpen, if_pos (key.mpr hmax)]

/-- Witness for C8 at a concrete open path: marker values [0] have maximum
0, not 1, so the path [5,6,7] is closed by appending vertex 5 with its
coordinate, the marker position 3 and the target value 1. -/
theorem C8_witness :
    closePathIfOpen [5,6,7] ([10,20,30] : List ℤ) [0] [0] =
      ⟨[5,6,7,5], [10,20,30,10], [0,3], [0,1]⟩ := by
  have h := (C8_close_iff_max_ne_one [5,6,7] ([10,20,30] : List ℤ) [0] [0]
    (by intro v hv; simp at hv; simp [hv])).1 (by decide)
  simpa using h

/-! ## C10: the artifact store helpers -/

/-- Looking a key up after an assignment at a different key is unchanged. -/
theorem dLookup_dSet_ne {α : Type} (l : List (String × DTree α)) (k k' : String)
    (v : DTree α) (h : k' ≠ k) : dLookup k' (dSet k v l) = dLookup k' l := by
  induction l with
  | nil => simp [dSet, dLookup, Ne.symm h]
  | cons p rest ih =>
      obtain ⟨k2, t⟩ := p
      by_cases hk : k2 = k
      · subst hk
        simp [dSet, dLookup, Ne.symm h]
      · simp only [dSet, if_neg hk, dLookup]
        by_cases hk2 : k2 = k'
        · simp [hk2]
        · simp [hk2, ih]

/-- Looking the assigned key up after an assignment returns the new value. -/
theorem dLookup_dSet_self {α : Type} (l : List (String × DTree α)) (k : String)
    (v : DTree α) : dLookup k (dSet k v l) = some v := by
  induction l with
  | nil => simp [dSet, dLookup]
  | cons p rest ih =>
      obtain ⟨k2, t⟩ := p
      by_cases hk : k2 = k
      · subst hk
        simp [dSet, dLookup]
      · simp [dSet, hk, dLookup, ih]

/-- Unfolding get_dict_entry one level into a node along a present key. -/
theorem get_dict_entry_cons_node {α : Type} (k : String) (ks : List String)
    (l : List (String × DTree α)) (sub : DTree α) (h : dLookup k l = some sub) :
    get_dict_entry (k :: ks) (.node l) = get_dict_entry ks sub := by
  simp [get_dict_entry, dGet, h, Bind.bind, Except.bind]

/-- Unfolding set_dict_entry one level into a node along a present key. -/
theorem set_dict_entry_cons_node {α : Type} (k0 k1 : String) (ks : List String)
    (l : List (String × DTree α)) (sub : DTree α) (v : α)
    (h : dLookup k0 l = some sub) :
    set_dict_entry (k0 :: k1 :: ks) (.node l) v =
      (set_dict_entry (k1 :: ks) sub v).map (fun s => .node (dSet k0 s l)) := by
  simp [set_dict_entry, h]

/-- Setting along a leaf key sequence succeeds and rewrites only the entry of
the head key. -/
theorem set_ok_of_leafSeq {α : Type} (k0 : String) (ks : List String)
    (l : List (String × DTree α)) (v : α)
    (hk : IsLeafSeq (k0 :: ks) (.node l)) :
    ∃ w, set_dict_entry (k0 :: ks) (.node l) v = .ok (.node (dSet k0 w l)) := by
  induction ks generalizing k0 l with
  | nil => exact ⟨.leaf v, by simp [set_dict_entry]⟩
  | cons k1 ks1 ih =>
      obtain ⟨a, ha⟩ := hk
      cases hl : dLookup k0 l with
      | none =>
          exfalso
          simp [get_dict_entry, dGet, hl, Bind.bind, Except.bind] at ha
      | some sub =>
          cases sub with
          | leaf b =>
              exfalso
              rw [get_dict_entry_cons_node k0 _ l _ hl] at ha
              simp [get_dict_entry, dGet, Bind.bind, Except.bind] at ha
          | node l1 =>
              have hsubleaf : IsLeafSeq (k1 :: ks1) (.node l1) :=
                ⟨a, by rw [← get_dict_entry_cons_node k0 _ l _ hl]; exact ha⟩
              obtain ⟨w1, hw1⟩ := ih k1 l1 hsubleaf
              refine ⟨.node (dSet k1 w1 l1), ?_⟩
              rw [set_dict_entry_cons_node k0 k1 ks1 l _ v hl, hw1]
              rfl

/-- C10 counterexample: the claim states that a write at a key sequence
absent from the store's schema raises KeyError and leaves every entry
unchanged. In the code only the prefix keys are resolved by getitem; the
final key is written by dict item assignment, which silently inserts a
missing key. In the store a -> b -> 1, the key sequence [a, c] is absent
(get_dict_entry raises KeyError), yet set_dict_entry returns successfully
and the store afterwards contains the new entry c. -/
theorem C10_counterexample_insert_missing_key :
    get_dict_entry ["a","c"]
        (DTree.node [("a", DTree.node [("b", DTree.leaf (1 : ℤ))])]) =
      .error .keyError ∧
    set_dict_entry ["a","c"]
        (DTree.node [("a", DTree.node [("b", DTree.leaf (1 : ℤ))])]) 2 =
      .ok (DTree.node [("a", DTree.node [("b", DTree.leaf 1), ("c", DTree.leaf 2)])]) :=
  ⟨rfl, rfl⟩

/-- C10 (amended): writing with set_dict_entry at a leaf key sequence of the
store succeeds and changes only that entry: reading any other leaf key
sequence afterwards gives the same result as before. A KeyError (or the
TypeError of indexing through an artifact) arises exactly from resolving the
prefix key_sequence[:-1], in which case the update never happens; an absent
final key under a resolvable prefix is inserted silently rather than
raising. -/
theorem C10_set_dict_entry_frame {α : Type} :
    (∀ (store : DTree α) (k k' : List String) (v : α),
        IsLeafSeq k store → IsLeafSeq k' store → k ≠ k' →
        ∃ store', set_dict_entry k store v = .ok store' ∧
          get_dict_entry k' store' = get_dict_entry k' store) ∧
    (∀ (store : DTree α) (k : List String) (v : α) (e : PyErr),
        get_dict_entry k.dropLast store = .error e →
        ∃ e', set_dict_entry k store v = .error e') := by
  constructor
  · intro store k k' v hk hk' hne
    induction k generalizing store k' with
    | nil =>
        obtain ⟨a, ha⟩ := hk
        simp only [get_dict_entry, Except.ok.injEq] at ha
        subst ha
        obtain ⟨b, hb⟩ := hk'
        cases k' with
        | nil => exact absurd rfl hne
        | cons x xs =>
            exfalso
            simp [get_dict_entry, dGet, Bind.bind, Except.bind] at hb
    | cons k0 ks ih =>
        obtain ⟨a, ha⟩ := hk
        cases store with
        | leaf b =>
            exfalso
            simp [get_dict_entry, dGet, Bind.bind, Except.bind] at ha
        | node l =>
            cases hl : dLookup k0 l with
            | none =>
                exfalso
                simp [get_dict_entry, dGet, hl, Bind.bind, Except.bind] at ha
            | some sub =>
                have hsubleaf : IsLeafSeq ks sub :=
                  ⟨a, by rw [← get_dict_entry_cons_node k0 ks l sub hl]; exact ha⟩
                obtain ⟨b, hb⟩ := hk'
                cases k' with
                | nil =>
                    exfalso
                    simp only [get_dict_entry, Except.ok.injEq] at hb
                    exact DTree.noConfusion hb
                | cons k0' ks' =>
                    cases hl' : dLookup k0' l with
                    | none =>
                        exfalso
                        simp [get_dict_entry, dGet, hl', Bind.bind, Except.bind] at hb
                    | some sub' =>
                        have hsub'leaf : IsLeafSeq ks' sub' :=
                          ⟨b, by rw [← get_dict_entry_cons_node k0' ks' l sub' hl']; exact hb⟩
                        by_cases hkk : k0' = k0
                        · subst hkk
                          rw [hl] at hl'
                          injection hl' with hsubeq
                          subst hsubeq
                          cases ks with
                          | nil =>
                              obtain ⟨c, hc⟩ := hsubleaf
                              simp only [get_dict_entry, Except.ok.injEq] at hc
                              subst hc
                              cases ks' with
                              | nil => exact absurd rfl hne
                              | cons y ys =>
                                  exfalso
                                  obtain ⟨d, hd⟩ := hsub'leaf
                                  simp [get_dict_entry, dGet, Bind.bind, Except.bind] at hd
                          | cons k1 ks1 =>
                              cases ks' with
                              | nil =>
                                  exfalso
                                  obtain ⟨c, hc⟩ := hsub'leaf
                                  simp only [get_dict_entry, Except.ok.injEq] at hc
                                  subst hc
                                  obtain ⟨d, hd⟩ := hsubleaf
                                  simp [get_dict_entry, dGet, Bind.bind, Except.bind] at hd
                              | cons y ys =>
                                  have htail : (k1 :: ks1) ≠ (y :: ys) := by
                                    intro hcontra
                                    exact hne (by rw [hcontra])
                                  obtain ⟨w, hok, hget⟩ :=
                                    ih sub (y :: ys) hsubleaf hsub'leaf htail
                                  refine ⟨.node (dSet k0' w l), ?_, ?_⟩
                                  · rw [set_dict_entry_cons_node k0' k1 ks1 l sub v hl, hok]
                                    rfl
                                  · rw [get_dict_entry_cons_node k0' (y :: ys) _ w
                                        (dLookup_dSet_self l k0' w),
                                      get_dict_entry_cons_node k0' (y :: ys) l sub hl]
                                    exact hget
                        · obtain ⟨w, hw⟩ := set_ok_of_leafSeq k0 ks l v ⟨a, ha⟩
                          refine ⟨.node (dSet k0 w l), hw, ?_⟩
                          rw [get_dict_entry_cons_node k0' ks' _ sub'
                              (by rw [dLookup_dSet_ne l k0 k0' w hkk]; exact hl'),
                            get_dict_entry_cons_node k0' ks' l sub' hl']
  · intro store k v e he
    induction k generalizing store with
    | nil => exact ⟨.indexError, rfl⟩
    | cons k0 ks ih =>
        cases ks with
        | nil => simp [get_dict_entry] at he
        | cons k1 ks1 =>
            have hdl : (k0 :: k1 :: ks1).dropLast = k0 :: (k1 :: ks1).dropLast := rfl
            rw [hdl] at he
            cases store with
            | leaf b => exact ⟨.typeError, rfl⟩
            | node l =>
                cases hl : dLookup k0 l with
                | none => exact ⟨.keyError, by simp [set_dict_entry, hl]⟩
                | some sub =>
                    rw [get_dict_entry_cons_node k0 _ l sub hl] at he
                    obtain ⟨e2, he2⟩ := ih sub he
                    refine ⟨e2, ?_⟩
                    rw [set_dict_entry_cons_node k0 k1 ks1 l sub v hl, he2]
                    rfl

/-- Witness for C10 at a concrete store: writing 9 at the leaf sequence
[a, b] succeeds and does not change what reading the other leaf sequence
[a, c] returns. -/
theorem C10_witness :
    ∃ store', set_dict_entry ["a","b"]
        (DTree.node [("a", DTree.node [("b", DTree.leaf (1 : ℤ)), ("c", DTree.leaf 5)])])
        9 = .ok store' ∧
      get_dict_entry ["a","c"] store' =
        get_dict_entry ["a","c"]
          (DTree.node [("a", DTree.node [("b", DTree.leaf (1 : ℤ)), ("c", DTree.leaf 5)])]) :=
  C10_set_dict_entry_frame.1 _ ["a","b"] ["a","c"] 9 ⟨1, rfl⟩ ⟨5, rfl⟩ (by decide)

/-! ## C7: marker-based reordering of a raw path -/

/-- Inserting an index permutes the extended list. -/
theorem argInsert_perm {β : Type} [LinearOrder β] (key : ℕ → β) (i : ℕ) (l : List ℕ) :
    (argInsert key i l).Perm (i :: l) := by
  induction l with
  | nil => rfl
  | cons j t ih =>
      rw [argInsert]
      split
      · rfl
      · exact ((ih.cons j).trans (List.Perm.swap i j t))

/-- Insertion preserves sortedness by the key. -/
theorem argInsert_sorted {β : Type} [LinearOrder β] (key : ℕ → β) (i : ℕ) (l : List ℕ)
    (hs : l.Pairwise (fun a b => key a ≤ key b)) :
    (argInsert key i l).Pairwise (fun a b => key a ≤ key b) := by
  induction l with
  | nil => simp [argInsert]
  | cons j t ih =>
      rw [List.pairwise_cons] at hs
      rw [argInsert]
      split
      · rename_i hlt
        rw [List.pairwise_cons]
        refine ⟨?_, List.pairwise_cons.mpr hs⟩
        intro b hb
        rcases List.mem_cons.mp hb with hb | hb
        · exact le_of_lt (hb ▸ hlt)
        · exact le_trans (le_of_lt hlt) (hs.1 b hb)
      · rename_i hnlt
        rw [List.pairwise_cons]
        refine ⟨?_, ih hs.2⟩
        intro b hb
        have hb' : b ∈ i :: t := (argInsert_perm key i t).mem_iff.mp hb
        rcases List.mem_cons.mp hb' with hb' | hb'
        · exact hb' ▸ le_of_not_lt hnlt
        · exact hs.1 b hb'

/-- The argsort is a permutation of the position range. -/
theorem npArgsort_perm {β : Type} [LinearOrder β] [Inhabited β] (keys : List β) :
    (npArgsort keys).Perm (List.range keys.length) := by
  rw [npArgsort]
  generalize List.range keys.length = l
  induction l with
  | nil => rfl
  | cons x t ih =>
      exact (argInsert_perm _ x _).trans (ih.cons x)

/-- The argsort is sorted by ascending key. -/
theorem npArgsort_sorted {β : Type} [LinearOrder β] [Inhabited β] (keys : List β) :
    (npArgsort keys).Pairwise
      (fun a b => keys.getD a default ≤ keys.getD b default) := by
  rw [npArgsort]
  generalize List.range keys.length = l
  induction l with
  | nil => simp
  | cons x t ih => exact argInsert_sorted _ x _ ih

/-- In a list strictly sorted by key, earlier positions have strictly
smaller keys, and conversely for members of the list. -/
theorem key_lt_iff_indexOf_lt {β : Type} [LinearOrder β] (key : ℕ → β) (S : List ℕ)
    (hS : S.Pairwise (fun a b => key a < key b))
    (i j : ℕ) (hi : i ∈ S) (hj : j ∈ S) :
    key i < key j ↔ S.indexOf i < S.indexOf j := by
  have hpl : S.indexOf i < S.length := List.indexOf_lt_length.mpr hi
  have hql : S.indexOf j < S.length := List.indexOf_lt_length.mpr hj
  have hgi : S[S.indexOf i] = i := List.getElem_indexOf hpl
  have hgj : S[S.indexOf j] = j := List.getElem_indexOf hql
  constructor
  · intro hlt
    rcases lt_trichotomy (S.indexOf i) (S.indexOf j) with h | h | h
    · exact h
    · exfalso
      have hgi' : S[S.indexOf i]? = some i := by
        rw [List.getElem?_eq_getElem hpl, hgi]
      have hgj' : S[S.indexOf j]? = some j := by
        rw [List.getElem?_eq_getElem hql, hgj]
      rw [h, hgj'] at hgi'
      have hij : i = j := (Option.some_inj.mp hgi').symm
      exact absurd (hij ▸ hlt) (lt_irrefl _)
    · exfalso
      have := (List.pairwise_iff_getElem.mp hS) _ _ hql hpl h
      rw [hgi, hgj] at this
      exact absurd (lt_trans hlt this) (lt_irrefl _)
  · intro h
    have := (List.pairwise_iff_getElem.mp hS) _ _ hpl hql h
    rw [hgi, hgj] at this
    exact this

/-- For pairwise-distinct key lists of equal length, two argsorts agree
exactly when the two key orders agree on every pair of positions. -/
theorem npArgsort_eq_iff {β γ : Type} [LinearOrder β] [Inhabited β]
    [LinearOrder γ] [Inhabited γ] (A : List β) (B : List γ)
    (hlen : A.length = B.length) (hA : A.Nodup) (hB : B.Nodup) :
    npArgsort A = npArgsort B ↔
      ∀ i j, i < A.length → j < A.length →
        (A.getD i default < A.getD j default ↔
         B.getD i default < B.getD j default) := by
  have hpermA := npArgsort_perm A
  have hpermB := npArgsort_perm B
  have hndA : (npArgsort A).Nodup := hpermA.nodup_iff.mpr (List.nodup_range _)
  have hndB : (npArgsort B).Nodup := hpermB.nodup_iff.mpr (List.nodup_range _)
  have hmemA : ∀ x, x ∈ npArgsort A ↔ x < A.length := by
    intro x
    rw [hpermA.mem_iff, List.mem_range]
  have hmemB : ∀ x, x ∈ npArgsort B ↔ x < B.length := by
    intro x
    rw [hpermB.mem_iff, List.mem_range]
  have hkeyA : ∀ i j, i < A.length → j < A.length → i ≠ j →
      A.getD i default ≠ A.getD j default := by
    intro i j hi hj hij
    rw [List.getD_eq_getElem?_getD, List.getElem?_eq_getElem hi,
      List.getD_eq_getElem?_getD, List.getElem?_eq_getElem hj]
    intro heq
    exact hij (hA.getElem_inj_iff.mp (by simpa using heq))
  have hkeyB : ∀ i j, i < B.length → j < B.length → i ≠ j →
      B.getD i default ≠ B.getD j default := by
    intro i j hi hj hij
    rw [List.getD_eq_getElem?_getD, List.getElem?_eq_getElem hi,
      List.getD_eq_getElem?_getD, List.getElem?_eq_getElem hj]
    intro heq
    exact hij (hB.getElem_inj_iff.mp (by simpa using heq))
  have hstrictA : (npArgsort A).Pairwise
      (fun a b => A.getD a default < A.getD b default) := by
    have := (npArgsort_sorted A).and hndA
    refine this.imp_of_mem ?_
    intro a b ha hb hab
    exact lt_of_le_of_ne hab.1
      (hkeyA a b ((hmemA a).mp ha) ((hmemA b).mp hb) hab.2)
  have hstrictB : (npArgsort B).Pairwise
      (fun a b => B.getD a default < B.getD b default) := by
    have := (npArgsort_sorted B).and hndB
    refine this.imp_of_mem ?_
    intro a b ha hb hab
    exact lt_of_le_of_ne hab.1
      (hkeyB a b ((hmemB a).mp ha) ((hmemB b).mp hb) hab.2)
  constructor
  · intro heq i j hi hj
    rw [key_lt_iff_indexOf_lt (fun x => A.getD x default) _ hstrictA i j
        ((hmemA i).mpr hi) ((hmemA j).mpr hj),
      key_lt_iff_indexOf_lt (fun x => B.getD x default) _ hstrictB i j
        ((hmemB i).mpr (hlen ▸ hi)) ((hmemB j).mpr (hlen ▸ hj)), heq]
  · intro hmono
    have hperm : (npArgsort A).Perm (npArgsort B) :=
      hpermA.trans (hlen ▸ hpermB.symm)
    have hsortB' : (npArgsort B).Pairwise
        (fun a b => A.getD a default < A.getD b default) := by
      refine hstrictB.imp_of_mem ?_
      intro a b ha hb hab
      have hal : a < A.length := hlen ▸ (hmemB a).mp ha
      have hbl : b < A.length := hlen ▸ (hmemB b).mp hb
      exact (hmono a b hal hbl).mpr hab
    haveI : IsAntisymm ℕ (fun a b => A.getD a default < A.getD b default) :=
      ⟨fun a b h1 h2 => absurd (lt_trans h1 h2) (lt_irrefl _)⟩
    exact List.eq_of_perm_of_sorted hperm hstrictA hsortB'

/-- Rolling by the negated index of a present element is rotation to it. -/
theorem npRoll_neg_indexOf {α : Type} [DecidableEq α] (l : List α) (m : α)
    (hm : m ∈ l) : npRoll l (-((l.indexOf m : ℕ) : ℤ)) = l.rotate (l.indexOf m) := by
  have hlt : l.indexOf m < l.length := List.indexOf_lt_length.mpr hm
  rw [npRoll, neg_neg]
  congr 1
  rw [Int.emod_eq_of_lt (by positivity) (by exact_mod_cast hlt)]
  exact Int.toNat_natCast _

/-- Rotation to a present element starts the list at that element. -/
theorem head?_rotate_indexOf {α : Type} [DecidableEq α] (l : List α) (m : α)
    (hm : m ∈ l) : (l.rotate (l.indexOf m)).head? = some m := by
  have hlt : l.indexOf m < l.length := List.indexOf_lt_length.mpr hm
  have h1 : (l.drop (l.indexOf m)).head? = some m := by
    rw [List.head?_drop, List.getElem?_eq_getElem hlt]
    exact congrArg some (List.getElem_indexOf hlt)
  rw [List.rotate_eq_drop_append_take (le_of_lt hlt)]
  cases hd : l.drop (l.indexOf m) with
  | nil => rw [hd] at h1; simp at h1
  | cons y ys =>
      rw [hd] at h1
      simp only [List.head?_cons, Option.some_inj] at h1
      simp [h1]

/-- np.roll(np.flip(l), 1) is reversal keeping the first element first. -/
theorem npRoll_reverse_one {α : Type} (x : α) (t : List α) :
    npRoll (x :: t).reverse 1 = x :: t.reverse := by
  rw [npRoll]
  have hlen : (x :: t).reverse.length = t.length + 1 := by simp
  have hmod : ((-1 : ℤ) % (((x :: t).reverse.length : ℕ) : ℤ)).toNat = t.length := by
    rw [hlen]
    have hcast : (((t.length + 1 : ℕ)) : ℤ) = (t.length : ℤ) + 1 := by push_cast; ring
    rw [hcast]
    have h1 : (-1 : ℤ) = (t.length : ℤ) + ((t.length : ℤ) + 1) * (-1) := by ring
    rw [h1, Int.add_mul_emod_self_left,
      Int.emod_eq_of_lt (by positivity) (by omega)]
    exact Int.toNat_natCast _
  rw [hmod, List.reverse_cons,
    List.rotate_eq_drop_append_take (by simp),
    List.drop_left' (by simp), List.take_left' (by simp)]
  rfl

/-- C7: the reordering step returns a path starting at the first marker's
vertex; the result is the rotated path when the as-stored order of the
marker positions along the rotated path matches the order implied by the
target values (the orders agree on every pair of markers), and the
reversal of the rotated path keeping the same start vertex when the orders
disagree. Hypotheses: the path and the marker values are duplicate-free,
every marker vertex lies on the path, and the marker list is nonempty with
pairwise-distinct vertices and as many values as markers. -/
theorem C7_reorder_by_markers_spec (path : List ℤ) (marker_inds : List ℤ)
    (marker_values : List ℚ)
    (hpnd : path.Nodup) (hmne : marker_inds ≠ [])
    (hmem : ∀ m ∈ marker_inds, m ∈ path)
    (hmnd : marker_inds.Nodup) (hvnd : marker_values.Nodup)
    (hlen : marker_values.length = marker_inds.length) :
    ((reorder_path_by_markers path marker_inds marker_values).1.head? =
        some marker_inds.headI) ∧
    ((∀ i, i < marker_inds.length → ∀ j, j < marker_inds.length →
        (((marker_inds.map
            (fun m => (path.rotate (path.indexOf marker_inds.headI)).indexOf m)).getD
              i default <
          (marker_inds.map
            (fun m => (path.rotate (path.indexOf marker_inds.headI)).indexOf m)).getD
              j default) ↔
         (marker_values.getD i default < marker_values.getD j default))) →
      (reorder_path_by_markers path marker_inds marker_values).1 =
        path.rotate (path.indexOf marker_inds.headI)) ∧
    ((¬ ∀ i, i < marker_inds.length → ∀ j, j < marker_inds.length →
        (((marker_inds.map
            (fun m => (path.rotate (path.indexOf marker_inds.headI)).indexOf m)).getD
              i default <
          (marker_inds.map
            (fun m => (path.rotate (path.indexOf marker_inds.headI)).indexOf m)).getD
              j default) ↔
         (marker_values.getD i default < marker_values.getD j default))) →
      (reorder_path_by_markers path marker_inds marker_values).1 =
        (path.rotate (path.indexOf marker_inds.headI)).headI ::
          (path.rotate (path.indexOf marker_inds.headI)).tail.reverse) := by
  have hm0 : marker_inds.headI ∈ path := by
    obtain ⟨m0, mrest, rfl⟩ := List.exists_cons_of_ne_nil hmne
    exact hmem m0 (List.mem_cons_self _ _)
  set rotated := path.rotate (path.indexOf marker_inds.headI) with hrotated
  set relInds := marker_inds.map (fun m => rotated.indexOf m) with hrelInds
  have hrelnd : relInds.Nodup := by
    rw [hrelInds]
    refine hmnd.map_on ?_
    intro m hml m' hm'l hidx
    have hmr : m ∈ rotated := (List.mem_rotate).mpr (hmem m hml)
    have hm'r : m' ∈ rotated := (List.mem_rotate).mpr (hmem m' hm'l)
    exact (List.indexOf_inj hmr hm'r).mp hidx
  have hrellen : relInds.length = marker_inds.length := by
    rw [hrelInds, List.length_map]
  have hiff := npArgsort_eq_iff relInds marker_values
    (by rw [hrellen, hlen]) hrelnd hvnd
  have hhead : rotated.head? = some marker_inds.headI :=
    head?_rotate_indexOf path _ hm0
  have hargs : reorder_path_by_markers path marker_inds marker_values =
      (if npArgsort relInds = npArgsort marker_values then (rotated, relInds)
       else (npRoll rotated.reverse 1,
         marker_inds.map (fun m => (npRoll rotated.reverse 1).indexOf m))) := by
    rw [reorder_path_by_markers]
    rw [npRoll_neg_indexOf path _ hm0]
  obtain ⟨x, t, hxt⟩ : ∃ x t, rotated = x :: t := by
    cases hr : rotated with
    | nil => rw [hr] at hhead; simp at hhead
    | cons x t => exact ⟨x, t, rfl⟩
  have hflip : npRoll rotated.reverse 1 = rotated.headI :: rotated.tail.reverse := by
    rw [hxt, npRoll_reverse_one]
    rfl
  by_cases hc : npArgsort relInds = npArgsort marker_values
  · rw [hargs, if_pos hc]
    have hmatch := (hiff.mp hc)
    refine ⟨hhead, fun _ => rfl, fun hnot => absurd ?_ hnot⟩
    intro i hi j hj
    exact hmatch i j (hrellen ▸ hi) (hrellen ▸ hj)
  · rw [hargs, if_neg hc]
    refine ⟨?_, ?_, fun _ => hflip⟩
    · rw [hflip, List.head?_cons, Option.some_inj]
      rw [hxt] at hhead ⊢
      simpa using hhead
    · intro hmatch
      exact absurd (hiff.mpr (fun i j hi hj =>
        hmatch i (hrellen ▸ hi) j (hrellen ▸ hj))) hc

/-- Witness for C7 at a concrete closed path: path [4,5,6,7] with markers
[5,7] at target values [0,1] rotates to [5,6,7,4]; the marker positions
[0,2] are ordered like the target values, so no reversal happens and the
result starts at vertex 5. -/
theorem C7_witness :
    (reorder_path_by_markers [4,5,6,7] [5,7] [0,1]).1.head? = some 5 ∧
    (reorder_path_by_markers [4,5,6,7] [5,7] [0,1]).1 = [5,6,7,4] := by
  have h := C7_reorder_by_markers_spec [4,5,6,7] [5,7] [0,1]
    (by decide) (by decide) (by decide) (by decide) (by decide) (by decide)
  refine ⟨by simpa using h.1, ?_⟩
  have h2 := h.2.1 (by decide)
  rw [h2]
  rfl

/-! ## C6: the flood fill never crosses a boundary-loop edge -/

/-- A true entry of the visited array after marking one face is either that
face or was already true. -/
theorem getD_set_true {l : List Bool} {i c : ℕ}
    (h : (l.set i true).getD c false = true) :
    c = i ∨ l.getD c false = true := by
  rw [List.getD_eq_getElem?_getD, List.getElem?_set] at h
  by_cases hic : i = c
  · exact Or.inl hic.symm
  · rw [if_neg hic] at h
    right
    rw [List.getD_eq_getElem?_getD]
    exact h

/-- Every face marked visited by the flood-fill loop is reachable from some
face of the invariant: if all stack faces and all already-visited faces are
reachable from the seed through admissible crossings, then so is every face
visited by the completed loop. -/
theorem floodLoop_reachable (faces : List (List ℤ)) (boundary_edges : List (ℤ × ℤ))
    (csr : List ℕ) (nbrs : List ℕ) (seed : ℕ) :
    ∀ (fuel : ℕ) (visited : List Bool) (stack : List ℕ) (out : List Bool),
      (∀ c ∈ stack, Relation.ReflTransGen (AdmStep faces boundary_edges csr nbrs) seed c) →
      (∀ c, visited.getD c false = true →
        Relation.ReflTransGen (AdmStep faces boundary_edges csr nbrs) seed c) →
      floodLoop faces boundary_edges csr nbrs fuel visited stack = some out →
      ∀ c, out.getD c false = true →
        Relation.ReflTransGen (AdmStep faces boundary_edges csr nbrs) seed c := by
  intro fuel
  induction fuel with
  | zero =>
      intro visited stack out hstack hvis hrun
      cases stack with
      | nil =>
          rw [floodLoop] at hrun
          cases hrun
          exact hvis
      | cons cur rest => exact absurd hrun (by rw [floodLoop]; simp)
  | succ n ih =>
      intro visited stack out hstack hvis hrun
      cases stack with
      | nil =>
          rw [floodLoop] at hrun
          cases hrun
          exact hvis
      | cons cur rest =>
          rw [floodLoop] at hrun
          have hcur : Relation.ReflTransGen (AdmStep faces boundary_edges csr nbrs) seed cur :=
            hstack cur (List.mem_cons_self _ _)
          refine ih (visited.set cur true) _ out ?_ ?_ hrun
          · intro c hc
            rcases List.mem_append.mp hc with hc | hc
            · have hc' := List.mem_reverse.mp hc
              obtain ⟨hmem, hfilter⟩ := List.mem_filter.mp hc'
              have hadm : admissibleCrossing faces boundary_edges cur c = true := by
                have := hfilter
                simp only [Bool.and_eq_true] at this
                exact this.1
              exact hcur.tail ⟨hmem, hadm⟩
            · exact hstack c (List.mem_cons_of_mem _ hc)
          · intro c hc
            rcases getD_set_true hc with hc | hc
            · exact hc ▸ hcur
            · exact hvis c hc

/-- C6: every face in the set returned by the Region Extractor's flood fill
is connected to the seed face by a chain of face adjacencies whose shared
edges are all non-boundary edges; no face is reached by crossing a
boundary-loop edge. -/
theorem C6_flood_fill_reachable (faces : List (List ℤ)) (boundary_edges : List (ℤ × ℤ))
    (csr : List ℕ) (nbrs : List ℕ) (seed : ℕ) (result : List ℕ)
    (hrun : extract_region_kernel faces boundary_edges csr nbrs seed = some result) :
    ∀ f ∈ result, Relation.ReflTransGen (AdmStep faces boundary_edges csr nbrs) seed f := by
  rw [extract_region_kernel] at hrun
  cases hloop : floodLoop faces boundary_edges csr nbrs (nbrs.length + 1)
      (List.replicate csr.length false) [seed] with
  | none => rw [hloop] at hrun; simp at hrun
  | some visited =>
      rw [hloop] at hrun
      rw [Option.map_some', Option.some_inj] at hrun
      intro f hf
      rw [← hrun] at hf
      obtain ⟨hrange, hvis⟩ := List.mem_filter.mp hf
      refine floodLoop_reachable faces boundary_edges csr nbrs seed _ _ _ _ ?_ ?_ hloop f hvis
      · intro c hc
        rw [List.mem_singleton] at hc
        exact hc ▸ Relation.ReflTransGen.refl
      · intro c hc
        rw [List.getD_eq_getElem?_getD, List.getElem?_replicate] at hc
        by_cases hlt : c < csr.length
        · rw [if_pos hlt] at hc; simp at hc
        · rw [if_neg hlt] at hc; simp at hc

/-- Witness for C6 at a concrete two-face mesh with no boundary edges: the
flood fill visits both faces, and face 1 of the returned region is reachable
from the seed face 0. -/
theorem C6_witness :
    Relation.ReflTransGen (AdmStep [[0,1,2],[1,2,3]] [] [0,1] [1,0]) 0 1 :=
  C6_flood_fill_reachable [[0,1,2],[1,2,3]] [] [0,1] [1,0] 0 [0,1] rfl 1 (by decide)

/-! ## C9: termination of the flood-fill loop -/

/-- Setting an entry does not change other entries (getD view). -/
theorem getD_set_ne_bool (l : List Bool) (i c : ℕ) (b : Bool) (h : c ≠ i) :
    (l.set i b).getD c false = l.getD c false := by
  rw [List.getD_eq_getElem?_getD, List.getElem?_set, if_neg (fun hic => h hic.symm),
    ← List.getD_eq_getElem?_getD]

/-- Setting an entry below the length makes it read back. -/
theorem getD_set_self_bool (l : List Bool) (i : ℕ) (b : Bool) (h : i < l.length) :
    (l.set i b).getD i false = b := by
  rw [List.getD_eq_getElem?_getD, List.getElem?_set, if_pos rfl, if_pos h]
  rfl

/-- Marking an already-visited face changes nothing (getD view). -/
theorem getD_set_already (l : List Bool) (i : ℕ) (h : l.getD i false = true) :
    ∀ c, (l.set i true).getD c false = l.getD c false := by
  intro c
  by_cases hc : c = i
  · subst hc
    by_cases hlen : c < l.length
    · rw [getD_set_self_bool l c true hlen, h]
    · exfalso
      rw [List.getD_eq_getElem?_getD,
        List.getElem?_eq_none (le_of_not_lt hlen)] at h
      simp at h
  · exact getD_set_ne_bool l i c true hc

/-- The neighbor slice is a sub-collection of the neighbor array. -/
theorem mem_nbrs_of_mem_neighborSlice (csr : List ℕ) (nbrs : List ℕ) (c nb : ℕ)
    (h : nb ∈ neighborSlice csr nbrs c) : nb ∈ nbrs := by
  rw [neighborSlice] at h
  exact List.mem_of_mem_drop (List.mem_of_mem_take h)

/-- The neighbor slice has at most rangeSize entries. -/
theorem length_neighborSlice_le (csr : List ℕ) (nbrs : List ℕ) (c : ℕ) :
    (neighborSlice csr nbrs c).length ≤ rangeSize csr nbrs c := by
  rw [neighborSlice, rangeSize, nbrStart, nbrEnd]
  exact le_trans (List.length_take_le _ _) (le_refl _)

/-- Flipping an unvisited face to visited decreases the unvisited-range sum
by exactly that face's range size. -/
theorem sum_unvisited_set (csr : List ℕ) (nbrs : List ℕ) (visited : List Bool)
    (cur : ℕ) (hcur : cur < csr.length) (hlen : visited.length = csr.length)
    (hv : visited.getD cur false = false) :
    (Finset.range csr.length).sum
        (fun f => if (visited.set cur true).getD f false then 0
          else rangeSize csr nbrs f) + rangeSize csr nbrs cur =
      (Finset.range csr.length).sum
        (fun f => if visited.getD f false then 0 else rangeSize csr nbrs f) := by
  have hmem : cur ∈ Finset.range csr.length := Finset.mem_range.mpr hcur
  rw [← Finset.add_sum_erase _ _ hmem, ← Finset.add_sum_erase _ _ hmem]
  have h1 : (if (visited.set cur true).getD cur false then 0
      else rangeSize csr nbrs cur) = 0 := by
    rw [getD_set_self_bool visited cur true (hlen ▸ hcur)]
    rfl
  have h2 : (if visited.getD cur false then 0 else rangeSize csr nbrs cur) =
      rangeSize csr nbrs cur := by rw [hv]; rfl
  have h3 : ((Finset.range csr.length).erase cur).sum
      (fun f => if (visited.set cur true).getD f false then 0
        else rangeSize csr nbrs f) =
      ((Finset.range csr.length).erase cur).sum
      (fun f => if visited.getD f false then 0 else rangeSize csr nbrs f) := by
    refine Finset.sum_congr rfl ?_
    intro f hf
    rw [getD_set_ne_bool visited cur f true (Finset.ne_of_mem_erase hf)]
  rw [h1, h2, h3]
  omega

/-- The flood-fill loop terminates whenever the fuel is at least the
potential, the LIFO invariant holds, the stack faces are in range and the
neighbor indices are in range. -/
theorem floodLoop_some (faces : List (List ℤ)) (boundary_edges : List (ℤ × ℤ))
    (csr : List ℕ) (nbrs : List ℕ)
    (hnb : ∀ nb ∈ nbrs, nb < csr.length) :
    ∀ (fuel : ℕ) (visited : List Bool) (stack : List ℕ),
      visited.length = csr.length →
      (∀ c ∈ stack, c < csr.length) →
      FloodInv faces boundary_edges csr nbrs visited stack →
      floodPotential csr nbrs visited stack ≤ fuel →
      ∃ out, floodLoop faces boundary_edges csr nbrs fuel visited stack = some out := by
  intro fuel
  induction fuel with
  | zero =>
      intro visited stack hvlen hbound hinv hpot
      cases stack with
      | nil => exact ⟨visited, rfl⟩
      | cons cur rest =>
          exfalso
          rw [floodPotential] at hpot
          simp at hpot
  | succ n ih =>
      intro visited stack hvlen hbound hinv hpot
      cases stack with
      | nil => exact ⟨visited, rfl⟩
      | cons cur rest =>
          have hstep : floodLoop faces boundary_edges csr nbrs (n + 1) visited
              (cur :: rest) =
              floodLoop faces boundary_edges csr nbrs n (visited.set cur true)
                (((neighborSlice csr nbrs cur).filter (fun nb =>
                    admissibleCrossing faces boundary_edges cur nb &&
                    !((visited.set cur true).getD nb false))).reverse ++ rest) := rfl
          rw [hstep]
          set pushes := (neighborSlice csr nbrs cur).filter (fun nb =>
              admissibleCrossing faces boundary_edges cur nb &&
              !((visited.set cur true).getD nb false)) with hpushes
          have hvlen' : (visited.set cur true).length = csr.length := by
            rw [List.length_set]
            exact hvlen
          by_cases hv : visited.getD cur false = true
          · -- already visited: the invariant forbids any push
            have hsame := getD_set_already visited cur hv
            have hnil : pushes = [] := by
              rw [hpushes, List.filter_eq_nil_iff]
              intro nb hmem hcond
              simp only [Bool.and_eq_true, Bool.not_eq_true'] at hcond
              rw [hsame nb] at hcond
              exact absurd (hinv [] cur rest rfl hv nb hmem hcond.1 hcond.2)
                (List.not_mem_nil nb)
            rw [hnil]
            simp only [List.reverse_nil, List.nil_append]
            refine ih (visited.set cur true) rest hvlen' ?_ ?_ ?_
            · exact fun c hc => hbound c (List.mem_cons_of_mem _ hc)
            · intro pre c post hsplit hvc nb hmem hadm hnb'
              rw [hsame] at hvc hnb'
              have hold := hinv (cur :: pre) c post (by rw [hsplit]; rfl) hvc nb
                hmem hadm hnb'
              rcases List.mem_cons.mp hold with hcontra | hgood
              · exfalso
                rw [hcontra] at hnb'
                rw [hv] at hnb'
                cases hnb'
              · exact hgood
            · rw [floodPotential] at hpot ⊢
              have hsum : (Finset.range csr.length).sum
                  (fun f => if (visited.set cur true).getD f false then 0
                    else rangeSize csr nbrs f) =
                  (Finset.range csr.length).sum
                  (fun f => if visited.getD f false then 0
                    else rangeSize csr nbrs f) :=
                Finset.sum_congr rfl (fun f _ => by rw [hsame f])
              rw [hsum]
              simp only [List.length_cons] at hpot
              omega
          · -- newly visited: the potential drops by at least one
            rw [Bool.not_eq_true] at hv
            have hcurlt : cur < csr.length := hbound cur (List.mem_cons_self _ _)
            have hpushmem : ∀ p ∈ pushes, p ∈ neighborSlice csr nbrs cur ∧
                admissibleCrossing faces boundary_edges cur p = true ∧
                (visited.set cur true).getD p false = false := by
              intro p hp
              rw [hpushes, List.mem_filter] at hp
              have := hp.2
              simp only [Bool.and_eq_true, Bool.not_eq_true'] at this
              exact ⟨hp.1, this.1, this.2⟩
            refine ih (visited.set cur true) (pushes.reverse ++ rest) hvlen' ?_ ?_ ?_
            · intro c hc
              rcases List.mem_append.mp hc with hc | hc
              · exact hnb c (mem_nbrs_of_mem_neighborSlice csr nbrs cur c
                  (hpushmem c (List.mem_reverse.mp hc)).1)
              · exact hbound c (List.mem_cons_of_mem _ hc)
            · -- invariant preservation
              intro pre c post hsplit hvc nb hmem hadm hnb'
              have hcases := List.append_eq_append_iff.mp hsplit.symm
              rcases hcases with ⟨a, ha1, ha2⟩ | ⟨a, ha1, ha2⟩
              · -- pushes.reverse = pre ++ a and c :: post = a ++ rest
                cases a with
                | nil =>
                    -- rest = c :: post and pre = pushes.reverse
                    have hrest : rest = c :: post := by simpa using ha2.symm
                    by_cases hcc : c = cur
                    · rw [hcc] at hmem hadm
                      have hnbp : nb ∈ pushes := by
                        rw [hpushes, List.mem_filter]
                        refine ⟨hmem, ?_⟩
                        simp only [Bool.and_eq_true, Bool.not_eq_true']
                        exact ⟨hadm, hnb'⟩
                      rw [show pre = pushes.reverse by simpa using ha1.symm]
                      exact List.mem_reverse.mpr hnbp
                    · have hvc' : visited.getD c false = true := by
                        rw [← getD_set_ne_bool visited cur c true hcc]
                        exact hvc
                      have hnb'' : visited.getD nb false = false := by
                        by_cases hnbcur : nb = cur
                        · exact hnbcur ▸ hv
                        · rw [← getD_set_ne_bool visited cur nb true hnbcur]
                          exact hnb'
                      have hold := hinv [cur] c post (by rw [hrest]; rfl) hvc' nb
                        hmem hadm hnb''
                      rcases List.mem_cons.mp hold with hcontra | hgood
                      · exfalso
                        rw [hcontra] at hnb'
                        rw [getD_set_self_bool visited cur true (hvlen ▸ hcurlt)] at hnb'
                        cases hnb'
                      · exact absurd hgood (List.not_mem_nil nb)
                | cons c' a' =>
                    exfalso
                    have hcc' : c = c' := by
                      have : c :: post = c' :: (a' ++ rest) := by simpa using ha2
                      exact (List.cons.injEq _ _ _ _ ▸ this).1
                    have hcp : c ∈ pushes := by
                      apply List.mem_reverse.mp
                      rw [show pushes.reverse = pre ++ c' :: a' by simpa using ha1]
                      exact List.mem_append.mpr (Or.inr (hcc' ▸ List.mem_cons_self _ _))
                    have := (hpushmem c hcp).2.2
                    rw [this] at hvc
                    cases hvc
              · -- pre = pushes.reverse ++ a and rest = a ++ c :: post
                by_cases hcc : c = cur
                · rw [hcc] at hmem hadm
                  have hnbp : nb ∈ pushes := by
                    rw [hpushes, List.mem_filter]
                    refine ⟨hmem, ?_⟩
                    simp only [Bool.and_eq_true, Bool.not_eq_true']
                    exact ⟨hadm, hnb'⟩
                  rw [ha1]
                  exact List.mem_append.mpr (Or.inl (List.mem_reverse.mpr hnbp))
                · have hvc' : visited.getD c false = true := by
                    rw [← getD_set_ne_bool visited cur c true hcc]
                    exact hvc
                  have hnb'' : visited.getD nb false = false := by
                    by_cases hnbcur : nb = cur
                    · exact hnbcur ▸ hv
                    · rw [← getD_set_ne_bool visited cur nb true hnbcur]
                      exact hnb'
                  have hold := hinv (cur :: a) c post (by rw [ha2]; rfl) hvc' nb
                    hmem hadm hnb''
                  rcases List.mem_cons.mp hold with hcontra | hgood
                  · exfalso
                    rw [hcontra] at hnb'
                    rw [getD_set_self_bool visited cur true (hvlen ▸ hcurlt)] at hnb'
                    cases hnb'
                  · rw [ha1]
                    exact List.mem_append.mpr (Or.inr hgood)
            · -- the potential strictly decreases
              rw [floodPotential] at hpot ⊢
              have hsum := sum_unvisited_set csr nbrs visited cur hcurlt hvlen hv
              have hplen : pushes.length ≤ rangeSize csr nbrs cur := by
                rw [hpushes]
                exact le_trans (List.length_filter_le _ _)
                  (length_neighborSlice_le csr nbrs cur)
              simp only [List.length_append, List.length_reverse,
                List.length_cons] at hpot ⊢
              omega

/-- Shifting the CSR structure by one entry shifts the range sizes. -/
theorem rangeSize_cons_succ (x : ℕ) (t : List ℕ) (nbrs : List ℕ) (i : ℕ) :
    rangeSize (x :: t) nbrs (i + 1) = rangeSize t nbrs i := by
  rw [rangeSize, rangeSize, nbrStart, nbrStart, nbrEnd, nbrEnd]
  simp only [List.getD_cons_succ, List.length_cons]
  congr 1
  by_cases hi : i + 1 < t.length
  · rw [if_pos (by omega), if_pos hi]
  · rw [if_neg (by omega), if_neg hi]

/-- Telescoping bound: the total CSR range size is at most the neighbor
array length minus the first range start. -/
theorem sum_rangeSize_le (nbrs : List ℕ) :
    ∀ (csr : List ℕ), csr.Chain' (· ≤ ·) → (∀ x ∈ csr, x ≤ nbrs.length) →
      (Finset.range csr.length).sum (fun f => rangeSize csr nbrs f) ≤
        nbrs.length - csr.headD nbrs.length := by
  intro csr
  induction csr with
  | nil => simp
  | cons x t ih =>
      intro hchain hub
      cases t with
      | nil =>
          simp only [List.length_cons, List.length_nil, Nat.zero_add,
            Finset.range_one, Finset.sum_singleton, List.headD_cons]
          rw [rangeSize, nbrStart, nbrEnd]
          simp
      | cons y t' =>
          have hchain' : (y :: t').Chain' (· ≤ ·) := hchain.tail
          have hub' : ∀ z ∈ y :: t', z ≤ nbrs.length :=
            fun z hz => hub z (List.mem_cons_of_mem _ hz)
          have hxy : x ≤ y := (List.chain'_cons.mp hchain).1
          have hyA : y ≤ nbrs.length := hub y (by simp)
          have hxA : x ≤ nbrs.length := hub x (by simp)
          have hlen : (x :: y :: t').length = (y :: t').length + 1 := rfl
          rw [hlen, Finset.sum_range_succ']
          have hshift : (Finset.range (y :: t').length).sum
              (fun i => rangeSize (x :: y :: t') nbrs (i + 1)) =
              (Finset.range (y :: t').length).sum
              (fun i => rangeSize (y :: t') nbrs i) :=
            Finset.sum_congr rfl (fun i _ => rangeSize_cons_succ x (y :: t') nbrs i)
          have hzero : rangeSize (x :: y :: t') nbrs 0 = y - x := by
            rw [rangeSize, nbrStart, nbrEnd]
            rw [if_pos (by simp)]
            rfl
          rw [hshift, hzero]
          have hIH := ih hchain' hub'
          rw [List.headD_cons] at hIH ⊢
          omega

/-- C9: on every input whose CSR adjacency structure is well formed
(neighbor indices within the face range, monotone range starts bounded by
the neighbor-array size) and whose seed face index is in range, the
explicit-frontier flood fill terminates within the wrapper fuel of one plus
the total adjacency size: each iteration pops one face, faces are expanded
only into unvisited neighbors, the visited set grows monotonically, and by
the LIFO invariant a pop of an already-visited face pushes nothing, so the
potential (stack size plus unvisited range sizes) strictly decreases. -/
theorem C9_flood_fill_terminates (faces : List (List ℤ))
    (boundary_edges : List (ℤ × ℤ)) (csr : List ℕ) (nbrs : List ℕ) (seed : ℕ)
    (hseed : seed < csr.length)
    (hnb : ∀ nb ∈ nbrs, nb < csr.length)
    (hchain : csr.Chain' (· ≤ ·))
    (hub : ∀ x ∈ csr, x ≤ nbrs.length) :
    ∃ result, extract_region_kernel faces boundary_edges csr nbrs seed = some result := by
  have hpot : floodPotential csr nbrs (List.replicate csr.length false) [seed] ≤
      nbrs.length + 1 := by
    rw [floodPotential]
    have hfalse : ∀ f, (List.replicate csr.length false).getD f false = false := by
      intro f
      rw [List.getD_eq_getElem?_getD, List.getElem?_replicate]
      split <;> rfl
    have hsum : (Finset.range csr.length).sum
        (fun f => if (List.replicate csr.length false).getD f false then 0
          else rangeSize csr nbrs f) =
        (Finset.range csr.length).sum (fun f => rangeSize csr nbrs f) :=
      Finset.sum_congr rfl (fun f _ => by rw [hfalse f]; rfl)
    rw [hsum]
    have := sum_rangeSize_le nbrs csr hchain hub
    simp only [List.length_singleton]
    omega
  obtain ⟨out, hout⟩ := floodLoop_some faces boundary_edges csr nbrs hnb
    (nbrs.length + 1) (List.replicate csr.length false) [seed]
    (List.length_replicate _ _)
    (fun c hc => by rw [List.mem_singleton] at hc; exact hc ▸ hseed)
    (fun pre c post hsplit hvc nb _ _ _ => by
      exfalso
      have : (List.replicate csr.length false).getD c false = false := by
        rw [List.getD_eq_getElem?_getD, List.getElem?_replicate]
        split <;> rfl
      rw [this] at hvc
      cases hvc)
    hpot
  exact ⟨_, by rw [extract_region_kernel, hout]; rfl⟩

/-- Witness for C9 at the concrete two-face mesh: the kernel terminates and
returns the visited faces. -/
theorem C9_witness :
    ∃ result, extract_region_kernel [[0,1,2],[1,2,3]] [(1,2)] [0,1] [1,0] 0 =
      some result :=
  C9_flood_fill_terminates [[0,1,2],[1,2,3]] [(1,2)] [0,1] [1,0] 0
    (by decide) (by decide) (by simp [List.chain'_cons]) (by decide)

/-! ## C2: monotone, marker-exact parameterization -/

/-- The slice assignment preserves the array length. -/
theorem writeSegment_length (arr : List ℚ) (s e : ℕ) (f : ℕ → ℚ) :
    (writeSegment arr s e f).length = arr.length := by
  simp [writeSegment]

/-- Reading the array after a slice assignment. -/
theorem getD_writeSegment (arr : List ℚ) (s e : ℕ) (f : ℕ → ℚ) (j : ℕ) :
    (writeSegment arr s e f).getD j 0 =
      if s ≤ j ∧ j ≤ e ∧ j < arr.length then f j else arr.getD j 0 := by
  rw [writeSegment, List.getD_eq_getElem?_getD, List.getElem?_map]
  by_cases hj : j < arr.length
  · rw [List.getElem?_range hj]
    by_cases hse : s ≤ j ∧ j ≤ e
    · rw [if_pos ⟨hse.1, hse.2, hj⟩]
      simp [hse]
    · rw [if_neg (fun hc => hse ⟨hc.1, hc.2.1⟩)]
      simp only [Option.map_some', Option.getD_some]
      rw [if_neg hse]
  · rw [List.getElem?_eq_none (by simpa using le_of_not_lt hj)]
    rw [if_neg (fun hc => hj hc.2.2)]
    rw [List.getD_eq_getElem?_getD, List.getElem?_eq_none (le_of_not_lt hj)]
    rfl

/-- Strictly increasing lists are strictly increasing in getD. -/
theorem chain'_lt_getD (l : List ℚ) (hl : l.Chain' (· < ·)) (a b : ℕ)
    (hab : a < b) (hb : b < l.length) : l.getD a 0 < l.getD b 0 := by
  have hp : l.Pairwise (· < ·) := List.chain'_iff_pairwise.mp hl
  have h := List.pairwise_iff_getElem.mp hp a b (lt_trans hab hb) hb hab
  rw [List.getD_eq_getElem?_getD, List.getElem?_eq_getElem (lt_trans hab hb),
    List.getD_eq_getElem?_getD, List.getElem?_eq_getElem hb]
  exact h

/-- The interpolated segment value at the segment start is the start value. -/
theorem segmentValue_start (cum : List ℚ) (s e : ℕ) (sv ev : ℚ) :
    segmentValue cum s e sv ev s = sv := by
  rw [segmentValue]
  simp

/-- The interpolated segment value at the segment end is the end value
(exactly, when the segment has positive cumulative length). -/
theorem segmentValue_end (cum : List ℚ) (s e : ℕ) (sv ev : ℚ)
    (hD : cum.getD s 0 < cum.getD e 0) :
    segmentValue cum s e sv ev e = ev := by
  rw [segmentValue, mul_div_assoc, div_self (by linarith)]
  ring

/-- The interpolated segment value is monotone within the segment. -/
theorem segmentValue_mono (cum : List ℚ) (hcum : cum.Chain' (· < ·)) (s e : ℕ)
    (sv ev : ℚ) (hv : sv ≤ ev) (hse : s < e) (he : e < cum.length) (j : ℕ)
    (hsj : s ≤ j) (hje : j + 1 ≤ e) :
    segmentValue cum s e sv ev j ≤ segmentValue cum s e sv ev (j + 1) := by
  have hD : cum.getD s 0 < cum.getD e 0 := chain'_lt_getD cum hcum s e hse he
  have hj1 : j + 1 < cum.length := lt_of_le_of_lt hje he
  have hnum : cum.getD j 0 ≤ cum.getD (j + 1) 0 :=
    le_of_lt (chain'_lt_getD cum hcum j (j + 1) (Nat.lt_succ_self j) hj1)
  rw [segmentValue, segmentValue]
  gcongr
  · linarith
  · linarith

/-- Along a marker chain the first marker position bounds the last. -/
theorem chain'_fst_le_getLastD :
    ∀ (l : List (ℕ × ℚ)) (m0 : ℕ × ℚ),
      ((m0 :: l).Chain' (fun a b => a.1 < b.1 ∧ a.2 ≤ b.2)) →
      m0.1 ≤ ((m0 :: l).getLastD (0, 0)).1 := by
  intro l
  induction l with
  | nil =>
      intro m0 h
      rw [List.getLastD_eq_getLast?]
      simp
  | cons m1 t ih =>
      intro m0 h
      have h01 := (List.chain'_cons.mp h).1
      have htail := (List.chain'_cons.mp h).2
      have hrec := ih m1 htail
      rw [List.getLastD_eq_getLast?, List.getLast?_cons_cons,
        ← List.getLastD_eq_getLast?]
      exact le_trans (le_of_lt h01.1) hrec

/-- Specification of the segment write loop: it preserves the length and
everything outside the marker span, it is monotone across the span, and it
is exact at every marker. -/
theorem applySegments_spec (cum : List ℚ) (hcum : cum.Chain' (· < ·)) :
    ∀ (markers : List (ℕ × ℚ)) (arr : List ℚ),
      markers ≠ [] →
      markers.Chain' (fun a b => a.1 < b.1 ∧ a.2 ≤ b.2) →
      (∀ m ∈ markers, m.1 < arr.length) →
      arr.length ≤ cum.length →
      (markers.length = 1 → arr.getD markers.headI.1 0 = markers.headI.2) →
      (applySegments cum arr markers).length = arr.length ∧
      (∀ j, j < markers.headI.1 →
        (applySegments cum arr markers).getD j 0 = arr.getD j 0) ∧
      (∀ j, (markers.getLastD (0, 0)).1 < j →
        (applySegments cum arr markers).getD j 0 = arr.getD j 0) ∧
      (∀ j, markers.headI.1 ≤ j → j + 1 ≤ (markers.getLastD (0, 0)).1 →
        (applySegments cum arr markers).getD j 0 ≤
          (applySegments cum arr markers).getD (j + 1) 0) ∧
      (∀ m ∈ markers, (applySegments cum arr markers).getD m.1 0 = m.2) := by
  intro markers
  induction markers with
  | nil => intro arr hne; exact absurd rfl hne
  | cons m tail ih =>
      intro arr hne hchain hbound hlen hbase
      cases tail with
      | nil =>
          refine ⟨rfl, fun j hj => rfl, fun j hj => rfl, ?_, ?_⟩
          · intro j hj1 hj2
            rw [List.getLastD_eq_getLast?] at hj2
            simp only [List.getLast?_singleton, Option.getD_some] at hj2
            simp only [List.headI_cons] at hj1
            omega
          · intro m2 hm2
            rw [List.mem_singleton] at hm2
            subst hm2
            exact hbase rfl
      | cons m1 tail1 =>
          obtain ⟨s, sv⟩ := m
          obtain ⟨e, ev⟩ := m1
          have hstep : applySegments cum arr ((s, sv) :: (e, ev) :: tail1) =
              applySegments cum
                (writeSegment arr s e (segmentValue cum s e sv ev))
                ((e, ev) :: tail1) := rfl
          set W := writeSegment arr s e (segmentValue cum s e sv ev) with hW
          have hWlen : W.length = arr.length := writeSegment_length arr s e _
          have hse : s < e ∧ sv ≤ ev := (List.chain'_cons.mp hchain).1
          have hchain1 : ((e, ev) :: tail1).Chain'
              (fun a b => a.1 < b.1 ∧ a.2 ≤ b.2) := (List.chain'_cons.mp hchain).2
          have helen : e < arr.length :=
            hbound (e, ev) (List.mem_cons_of_mem _ (List.mem_cons_self _ _))
          have hecum : e < cum.length := lt_of_lt_of_le helen hlen
          have hD : cum.getD s 0 < cum.getD e 0 :=
            chain'_lt_getD cum hcum s e hse.1 hecum
          have hWe : W.getD e 0 = ev := by
            rw [hW, getD_writeSegment,
              if_pos ⟨le_of_lt hse.1, le_refl e, helen⟩]
            exact segmentValue_end cum s e sv ev hD
          have hIH := ih W (by simp)
            hchain1
            (fun m2 hm2 => hWlen ▸ hbound m2 (List.mem_cons_of_mem _ hm2))
            (hWlen ▸ hlen)
            (by
              intro hlen1
              simp only [List.headI_cons]
              cases tail1 with
              | nil => exact hWe
              | cons a b => simp at hlen1)
          obtain ⟨c1, c2, c3, c4, c5⟩ := hIH
          have hlast : (((s, sv) :: (e, ev) :: tail1).getLastD (0, 0)) =
              (((e, ev) :: tail1).getLastD (0, 0)) := by
            rw [List.getLastD_eq_getLast?, List.getLastD_eq_getLast?,
              List.getLast?_cons_cons]
          have helast : e ≤ (((e, ev) :: tail1).getLastD (0, 0)).1 :=
            chain'_fst_le_getLastD tail1 (e, ev) hchain1
          refine ⟨?_, ?_, ?_, ?_, ?_⟩
          all_goals rw [hstep]
          · rw [c1, hWlen]
          · intro j hj
            simp only [List.headI_cons] at hj
            rw [c2 j (lt_trans hj hse.1), hW, getD_writeSegment,
              if_neg (fun hc => absurd hc.1 (not_le_of_lt hj))]
          · intro j hj
            rw [hlast] at hj
            have hej : e < j := lt_of_le_of_lt helast hj
            rw [c3 j hj, hW, getD_writeSegment,
              if_neg (fun hc => absurd hc.2.1 (not_le_of_lt hej))]
          · intro j hj1 hj2
            simp only [List.headI_cons] at hj1
            rw [hlast] at hj2
            by_cases hje : j + 1 ≤ e
            · have hFj : (applySegments cum W ((e, ev) :: tail1)).getD j 0 =
                  segmentValue cum s e sv ev j := by
                rw [c2 j (by simp only [List.headI_cons]; omega), hW, getD_writeSegment,
                  if_pos ⟨hj1, by omega, by omega⟩]
              have hFj1 : (applySegments cum W ((e, ev) :: tail1)).getD (j + 1) 0 =
                  segmentValue cum s e sv ev (j + 1) := by
                by_cases hj1e : j + 1 < e
                · rw [c2 (j + 1) (by simpa using hj1e), hW, getD_writeSegment,
                    if_pos ⟨by omega, by omega, by omega⟩]
                · have hj1e' : j + 1 = e := by omega
                  rw [hj1e']
                  rw [c5 (e, ev) (List.mem_cons_self _ _)]
                  exact (segmentValue_end cum s e sv ev hD).symm
              rw [hFj, hFj1]
              exact segmentValue_mono cum hcum s e sv ev hse.2 hse.1
                (lt_of_lt_of_le hecum (le_refl _)) j hj1 hje
            · exact c4 j (by simp only [List.headI_cons]; omega) hj2
          · intro m2 hm2
            rcases List.mem_cons.mp hm2 with hm2 | hm2
            · subst hm2
              rw [c2 s hse.1, hW, getD_writeSegment,
                if_pos ⟨le_refl s, le_of_lt hse.1, lt_trans hse.1 helen⟩]
              exact segmentValue_start cum s e sv ev
            · exact c5 m2 hm2

/-- Zipping preserves chains componentwise. -/
theorem chain'_zip (a : List ℕ) (b : List ℚ) (r1 : ℕ → ℕ → Prop) (r2 : ℚ → ℚ → Prop)
    (h1 : a.Chain' r1) (h2 : b.Chain' r2) :
    (a.zip b).Chain' (fun p q => r1 p.1 q.1 ∧ r2 p.2 q.2) := by
  rw [List.chain'_iff_get] at h1 h2 ⊢
  intro i hi
  rw [List.length_zip] at hi
  have hia : i < a.length - 1 := by omega
  have hib : i < b.length - 1 := by omega
  have g1 := h1 i hia
  have g2 := h2 i hib
  have hz1 : i < (a.zip b).length := by rw [List.length_zip]; omega
  have hz2 : i + 1 < (a.zip b).length := by rw [List.length_zip]; omega
  have e1 : (a.zip b).get ⟨i, hz1⟩ = (a.get ⟨i, by omega⟩, b.get ⟨i, by omega⟩) := by
    simp [List.get_eq_getElem, List.getElem_zip]
  have e2 : (a.zip b).get ⟨i + 1, hz2⟩ =
      (a.get ⟨i + 1, by omega⟩, b.get ⟨i + 1, by omega⟩) := by
    simp [List.get_eq_getElem, List.getElem_zip]
  rw [List.get_eq_getElem, List.getElem_zip]
  constructor
  · simpa using g1
  · simpa using g2

/-- The last entry of a zip of equally long lists. -/
theorem getLast?_zip : ∀ (a : List ℕ) (b : List ℚ), a.length = b.length →
    ∀ x y, a.getLast? = some x → b.getLast? = some y →
      (a.zip b).getLast? = some (x, y) := by
  intro a
  induction a with
  | nil => intro b hlen x y hx; simp at hx
  | cons p t ih =>
      intro b hlen x y hx hy
      cases b with
      | nil => simp at hlen
      | cons q u =>
          cases t with
          | nil =>
              cases u with
              | nil =>
                  simp at hx hy
                  subst hx
                  subst hy
                  rfl
              | cons q1 u1 => simp at hlen
          | cons p1 t1 =>
              cases u with
              | nil => simp at hlen
              | cons q1 u1 =>
                  have hlen' : (p1 :: t1).length = (q1 :: u1).length := by
                    simpa using hlen
                  rw [List.getLast?_cons_cons] at hx
                  rw [List.getLast?_cons_cons] at hy
                  have hrec := ih (q1 :: u1) hlen' x y hx hy
                  have hzc : (p1 :: t1).zip (q1 :: u1) = (p1, q1) :: (t1.zip u1) := rfl
                  rw [List.zip_cons_cons, hzc, List.getLast?_cons_cons, ← hzc]
                  exact hrec

/-- The coordinate array and path stay equally long through the
closed-path handling. -/
theorem closePath_coords_length {P : Type} [Inhabited P] (path : List ℤ)
    (points : ℤ → P) (relative_marker_inds : List ℕ) (marker_values : List ℚ) :
    (closePathIfOpen path (path.map points) relative_marker_inds
      marker_values).ccoords.length =
    (closePathIfOpen path (path.map points) relative_marker_inds
      marker_values).cpath.length := by
  rw [closePathIfOpen]
  split <;> simp

/-- The cumulative length array has one more entry than there are edges. -/
theorem length_cumulativeLengths {P : Type} (dist : P → P → ℚ) (coords : List P) :
    (cumulativeLengths dist coords).length = (coords.length - 1) + 1 := by
  rw [cumulativeLengths, List.length_scanl, List.length_zipWith, List.length_tail]
  omega

/-- getD of a zip at an in-range index is the pair of the getD reads. -/
theorem getD_zip (l1 : List ℕ) (l2 : List ℚ) (i : ℕ)
    (h1 : i < l1.length) (h2 : i < l2.length) :
    (l1.zip l2).getD i (0, 0) = (l1.getD i 0, l2.getD i 0) := by
  induction l1 generalizing l2 i with
  | nil => simp at h1
  | cons a t ih =>
      cases l2 with
      | nil => simp at h2
      | cons b u =>
          cases i with
          | zero => rfl
          | succ j =>
              have hj1 : j < t.length := by
                simp only [List.length_cons] at h1
                omega
              have hj2 : j < u.length := by
                simp only [List.length_cons] at h2
                omega
              have := ih u j hj1 hj2
              simpa [List.zip_cons_cons, List.getD_cons_succ] using this

/-- A list is a non-decreasing chain when adjacent getD reads are ordered. -/
theorem chain'_le_of_getD (l : List ℚ)
    (h : ∀ j, j + 1 < l.length → l.getD j 0 ≤ l.getD (j + 1) 0) :
    l.Chain' (· ≤ ·) := by
  rw [List.chain'_iff_get]
  intro i hi
  have h1 : i < l.length := by omega
  have h2 : i + 1 < l.length := by omega
  have hle := h i h2
  rw [List.getD_eq_getElem?_getD, List.getElem?_eq_getElem h1,
    List.getD_eq_getElem?_getD, List.getElem?_eq_getElem h2] at hle
  simpa using hle

/-- C2 (amended): whenever, after the closed-path handling, the marker
positions are strictly increasing from position 0 to the final path
position, the marker target values are non-decreasing, the marker lists
are parallel with at least two markers, all positions are in range and the
cumulative arc length is strictly increasing (no zero-length edges), the
relative-length array produced by the parameterizer is non-decreasing along
the stored order and exactly equals each marker's target value at that
marker's position (exact rational arithmetic). Without the coverage
hypothesis (last marker at the final position whenever 1.0 is among the
values) the original claim is false: trailing vertices keep the initial
value 0. -/
theorem C2_parameterize_monotone_exact {P : Type} [Inhabited P]
    (dist : P → P → ℚ) (points : ℤ → P) (path : List ℤ)
    (relative_marker_inds : List ℕ) (marker_values : List ℚ)
    (h1 : (closePathIfOpen path (path.map points) relative_marker_inds
      marker_values).cinds.Chain' (· < ·))
    (h2 : (closePathIfOpen path (path.map points) relative_marker_inds
      marker_values).cvalues.Chain' (· ≤ ·))
    (h3 : (closePathIfOpen path (path.map points) relative_marker_inds
      marker_values).cinds.headI = 0)
    (h4 : (closePathIfOpen path (path.map points) relative_marker_inds
      marker_values).cinds.getLast? = some ((closePathIfOpen path (path.map points)
        relative_marker_inds marker_values).cpath.length - 1))
    (h5 : (cumulativeLengths dist (closePathIfOpen path (path.map points)
      relative_marker_inds marker_values).ccoords).Chain' (· < ·))
    (h6 : (closePathIfOpen path (path.map points) relative_marker_inds
      marker_values).cinds.length = (closePathIfOpen path (path.map points)
        relative_marker_inds marker_values).cvalues.length)
    (h7 : 2 ≤ (closePathIfOpen path (path.map points) relative_marker_inds
      marker_values).cinds.length)
    (h8 : ∀ i ∈ (closePathIfOpen path (path.map points) relative_marker_inds
      marker_values).cinds, i < (closePathIfOpen path (path.map points)
        relative_marker_inds marker_values).cpath.length) :
    (parameterize_by_relative_length dist points path relative_marker_inds
      marker_values).relative_lengths.Chain' (· ≤ ·) ∧
    (∀ i, i < (closePathIfOpen path (path.map points) relative_marker_inds
        marker_values).cinds.length →
      (parameterize_by_relative_length dist points path relative_marker_inds
        marker_values).relative_lengths.getD
          ((closePathIfOpen path (path.map points) relative_marker_inds
            marker_values).cinds.getD i 0) 0 =
        (closePathIfOpen path (path.map points) relative_marker_inds
          marker_values).cvalues.getD i 0) := by
  set C := closePathIfOpen path (path.map points) relative_marker_inds marker_values
    with hC
  set cum := cumulativeLengths dist C.ccoords with hcum
  set markers := C.cinds.zip C.cvalues with hmarkers
  set arr := (List.replicate C.cpath.length (0 : ℚ)) with harr
  have hres : parameterize_by_relative_length dist points path relative_marker_inds
      marker_values = ⟨C.cpath, applySegments cum arr markers⟩ := rfl
  -- basic lengths
  have hmlen : markers.length = C.cinds.length := by
    rw [hmarkers, List.length_zip, h6]
    exact Nat.min_self _
  have harrlen : arr.length = C.cpath.length := List.length_replicate _ _
  have hpathpos : 1 ≤ C.cpath.length := by
    obtain ⟨i0, hi0⟩ : ∃ i0, i0 ∈ C.cinds := by
      cases hc : C.cinds with
      | nil => rw [hc] at h7; simp at h7
      | cons a b => exact ⟨a, by simp [hc]⟩
    have := h8 i0 hi0
    omega
  have hclen : C.ccoords.length = C.cpath.length :=
    closePath_coords_length path points relative_marker_inds marker_values
  have hcumlen : arr.length ≤ cum.length := by
    rw [harrlen, hcum, length_cumulativeLengths, hclen]
    omega
  -- the marker chain
  have hchain : markers.Chain' (fun a b => a.1 < b.1 ∧ a.2 ≤ b.2) :=
    chain'_zip C.cinds C.cvalues _ _ h1 h2
  have hbound : ∀ m ∈ markers, m.1 < arr.length := by
    intro m hm
    rw [harrlen]
    exact h8 m.1 (List.of_mem_zip hm).1
  have hne : markers ≠ [] := by
    intro hcon
    rw [hcon] at hmlen
    simp at hmlen
    omega
  have hbase : markers.length = 1 → arr.getD markers.headI.1 0 = markers.headI.2 := by
    intro hlen1
    rw [hmlen] at hlen1
    omega
  obtain ⟨c1, c2, c3, c4, c5⟩ :=
    applySegments_spec cum h5 markers arr hne hchain hbound hcumlen hbase
  -- head and last markers
  have hheadI : markers.headI.1 = 0 := by
    obtain ⟨x, t, hx⟩ : ∃ x t, C.cinds = x :: t := by
      cases hc : C.cinds with
      | nil => rw [hc] at h7; simp at h7
      | cons a b => exact ⟨a, b, rfl⟩
    obtain ⟨y, u, hy⟩ : ∃ y u, C.cvalues = y :: u := by
      cases hc : C.cvalues with
      | nil =>
          exfalso
          rw [hc] at h6
          rw [List.length_nil] at h6
          omega
      | cons a b => exact ⟨a, b, rfl⟩
    rw [hmarkers, hx, hy, List.zip_cons_cons, List.headI_cons]
    rw [hx, List.headI_cons] at h3
    exact h3
  have hlastm : (markers.getLastD (0, 0)).1 = C.cpath.length - 1 := by
    obtain ⟨y, hy⟩ : ∃ y, C.cvalues.getLast? = some y := by
      cases hc : C.cvalues.getLast? with
      | none =>
          exfalso
          rw [List.getLast?_eq_none_iff] at hc
          rw [hc] at h6
          rw [List.length_nil] at h6
          omega
      | some y => exact ⟨y, rfl⟩
    have hz := getLast?_zip C.cinds C.cvalues h6 _ y h4 hy
    rw [hmarkers, List.getLastD_eq_getLast?, hz]
    rfl
  refine ⟨?_, ?_⟩
  · -- monotone
    rw [hres]
    show (applySegments cum arr markers).Chain' (· ≤ ·)
    apply chain'_le_of_getD
    intro j hj
    rw [c1, harrlen] at hj
    exact c4 j (by omega) (by omega)
  · -- exact at markers
    intro i hilen
    rw [hres]
    have hmem : (C.cinds.getD i 0, C.cvalues.getD i 0) ∈ markers := by
      have h2' : i < C.cvalues.length := by omega
      have hg : markers.getD i (0, 0) = (C.cinds.getD i 0, C.cvalues.getD i 0) := by
        rw [hmarkers]
        exact getD_zip _ _ _ hilen h2'
      rw [← hg]
      have hiz : i < markers.length := by omega
      rw [List.getD_eq_getElem?_getD, List.getElem?_eq_getElem hiz]
      simp only [Option.getD_some]
      exact List.getElem_mem _
    exact c5 _ hmem

/-- The reordering step fixes nothing on the counterexample input: the path
already starts at the first marker and the marker order matches the value
order, so it is returned unchanged with marker positions 0 and 2. -/
theorem reorder_eval :
    reorder_path_by_markers [0, 1, 2, 3] [0, 2] [0, 1] = ([0, 1, 2, 3], [0, 2]) := by
  rfl

/-- Counterexample to C2 as stated: on the path 0-1-2-3 with markers at
vertices 0 and 2 carrying target values 0 and 1, the value 1.0 is among the
targets so the path is not closed, the segment loop stops at path position 2
and the trailing vertex keeps its initial value 0; the relative-length array
is [0, 1/2, 1, 0], which is not non-decreasing. -/
theorem C2_counterexample_trailing_zero :
    ¬ ((parameterize_path (fun a b : ℤ => ((a - b).natAbs : ℚ)) (fun v : ℤ => v)
        [0, 1, 2, 3] [0, 2] [0, 1]).relative_lengths.Chain' (· ≤ ·)) := by
  have heval : (parameterize_path (fun a b : ℤ => ((a - b).natAbs : ℚ)) (fun v : ℤ => v)
      [0, 1, 2, 3] [0, 2] [0, 1]).relative_lengths = [0, 1/2, 1, 0] := by
    simp only [parameterize_path, reorder_eval]
    norm_num [parameterize_by_relative_length, closePathIfOpen, cumulativeLengths,
      applySegments, writeSegment, segmentValue, List.range_succ, List.scanl,
      List.getD, List.replicate]
  rw [heval]
  intro hchain
  rw [List.chain'_cons, List.chain'_cons, List.chain'_cons] at hchain
  have := hchain.2.2.1
  norm_num at this

/-- Witness for the amended C2 theorem on the path 0-1-2-3 with markers at
positions 0 and 3 carrying target values 0 and 1 (every hypothesis holds and
the conclusion is the instantiated monotonicity-and-exactness statement). -/
theorem C2_witness :
    (parameterize_by_relative_length (fun a b : ℤ => ((a - b).natAbs : ℚ))
        (fun v : ℤ => v) [0, 1, 2, 3] [0, 3] [0, 1]).relative_lengths.Chain' (· ≤ ·) ∧
    (∀ i, i < (closePathIfOpen [0, 1, 2, 3] (List.map (fun v : ℤ => v) [0, 1, 2, 3])
        [0, 3] [0, 1]).cinds.length →
      (parameterize_by_relative_length (fun a b : ℤ => ((a - b).natAbs : ℚ))
          (fun v : ℤ => v) [0, 1, 2, 3] [0, 3] [0, 1]).relative_lengths.getD
        ((closePathIfOpen [0, 1, 2, 3] (List.map (fun v : ℤ => v) [0, 1, 2, 3])
          [0, 3] [0, 1]).cinds.getD i 0) 0 =
      (closePathIfOpen [0, 1, 2, 3] (List.map (fun v : ℤ => v) [0, 1, 2, 3])
        [0, 3] [0, 1]).cvalues.getD i 0) :=
  C2_parameterize_monotone_exact (fun a b : ℤ => ((a - b).natAbs : ℚ)) (fun v : ℤ => v)
    [0, 1, 2, 3] [0, 3] [0, 1]
    (by norm_num [closePathIfOpen, List.chain'_cons])
    (by norm_num [closePathIfOpen, List.chain'_cons])
    (by rfl)
    (by rfl)
    (by norm_num [closePathIfOpen, cumulativeLengths, List.scanl, List.chain'_cons])
    (by rfl)
    (by norm_num [closePathIfOpen])
    (by decide)

/-- An index returned by findIdx? is in range. -/
theorem findIdx_some_lt_length {α : Type} (p : α → Bool) (l : List α) (i : ℕ)
    (h : l.findIdx? p = some i) : i < l.length := by
  obtain ⟨h1, -, -⟩ := List.findIdx?_eq_some_iff_getElem.mp h
  exact h1

/-- getD of a zip at an in-range index is the pair of the getD reads
(polymorphic version). -/
theorem getD_zip_poly {α β : Type} (l1 : List α) (l2 : List β) (i : ℕ) (d1 : α) (d2 : β)
    (h1 : i < l1.length) (h2 : i < l2.length) :
    (l1.zip l2).getD i (d1, d2) = (l1.getD i d1, l2.getD i d2) := by
  induction l1 generalizing l2 i with
  | nil => simp at h1
  | cons a t ih =>
      cases l2 with
      | nil => simp at h2
      | cons b u =>
          cases i with
          | zero => rfl
          | succ j =>
              have hj1 : j < t.length := by
                simp only [List.length_cons] at h1
                omega
              have hj2 : j < u.length := by
                simp only [List.length_cons] at h2
                omega
              have := ih u j hj1 hj2
              simpa [List.zip_cons_cons, List.getD_cons_succ] using this

/-- Length of the inclusive slice when the end index is in range. -/
theorem sliceIncl_length {α : Type} (l : List α) (s e : ℕ) (he : e < l.length) :
    (sliceIncl l s e).length = e + 1 - s := by
  simp only [sliceIncl, List.length_take, List.length_drop]
  omega

/-- getD of the inclusive slice in terms of the original list. -/
theorem sliceIncl_getD {α : Type} (l : List α) (d : α) (s e k : ℕ)
    (hk : k < e + 1 - s) :
    (sliceIncl l s e).getD k d = l.getD (s + k) d := by
  simp only [sliceIncl]
  rw [List.getD_eq_getElem?_getD, List.getElem?_take, if_pos hk, List.getElem?_drop,
    List.getD_eq_getElem?_getD]

/-- The inclusive slice of a non-decreasing list is pairwise ordered. -/
theorem pairwise_sliceIncl (l : List ℚ) (s e : ℕ) (h : l.Chain' (· ≤ ·)) :
    (sliceIncl l s e).Pairwise (· ≤ ·) := by
  have hp : l.Pairwise (· ≤ ·) := List.chain'_iff_pairwise.mp h
  exact hp.sublist ((List.take_sublist _ _).trans (List.drop_sublist _ _))

/-- Folding min over a list that is pairwise above the seed keeps the seed. -/
theorem foldl_min_pairwise (x : ℚ) (t : List ℚ) (h : (x :: t).Pairwise (· ≤ ·)) :
    t.foldl min x = x := by
  induction t generalizing x with
  | nil => rfl
  | cons y u ih =>
      obtain ⟨h1, h2⟩ := List.pairwise_cons.mp h
      obtain ⟨h3, h4⟩ := List.pairwise_cons.mp h2
      have hxy : x ≤ y := h1 y (List.mem_cons_self _ _)
      have h' : (x :: u).Pairwise (· ≤ ·) :=
        List.pairwise_cons.mpr ⟨fun z hz => h1 z (List.mem_cons_of_mem _ hz), h4⟩
      simp only [List.foldl_cons, min_eq_left hxy]
      exact ih x h'

/-- Folding max over a pairwise-ordered list reaches its last element. -/
theorem foldl_max_pairwise (x : ℚ) (t : List ℚ) (h : (x :: t).Pairwise (· ≤ ·)) :
    t.foldl max x = t.getLastD x := by
  induction t generalizing x with
  | nil => rfl
  | cons y u ih =>
      obtain ⟨h1, h2⟩ := List.pairwise_cons.mp h
      have hxy : x ≤ y := h1 y (List.mem_cons_self _ _)
      simp only [List.foldl_cons, max_eq_right hxy, List.getLastD_cons]
      exact ih y h2

/-- getD at the last position of a cons list is its last element. -/
theorem getD_last_index {α : Type} (x : α) (t : List α) (d : α) :
    (x :: t).getD t.length d = t.getLastD x := by
  induction t generalizing x with
  | nil => rfl
  | cons y u ih =>
      rw [List.length_cons, List.getD_cons_succ, List.getLastD_cons]
      exact ih y

/-- np.min of a nonempty pairwise-ordered list is its first element. -/
theorem listMinD_eq_head (l : List ℚ) (hne : l ≠ []) (h : l.Pairwise (· ≤ ·)) :
    listMinD l = l.getD 0 0 := by
  cases l with
  | nil => exact absurd rfl hne
  | cons x t => exact foldl_min_pairwise x t h

/-- np.max of a nonempty pairwise-ordered list is its last element. -/
theorem listMaxD_eq_last (l : List ℚ) (hne : l ≠ []) (h : l.Pairwise (· ≤ ·)) :
    listMaxD l = l.getD (l.length - 1) 0 := by
  cases l with
  | nil => exact absurd rfl hne
  | cons x t =>
      have h1 : listMaxD (x :: t) = t.getLastD x := foldl_max_pairwise x t h
      rw [h1, ← getD_last_index x t (0 : ℚ)]
      congr 1

/-- getD of a mapped list at an in-range index. -/
theorem getD_map_lt {α β : Type} (f : α → β) (l : List α) (k : ℕ) (d : β) (d0 : α)
    (hk : k < l.length) : (l.map f).getD k d = f (l.getD k d0) := by
  rw [List.getD_eq_getElem?_getD, List.getElem?_map, List.getElem?_eq_getElem hk,
    List.getD_eq_getElem?_getD, List.getElem?_eq_getElem hk]
  rfl

/-- getD of dropLast at an index below the shortened length. -/
theorem getD_dropLast_lt {α : Type} (l : List α) (k : ℕ) (d : α) (hk : k < l.length - 1) :
    (l.dropLast).getD k d = l.getD k d := by
  have h2 : k < l.length := by omega
  have hk' : k < l.dropLast.length := by
    rw [List.length_dropLast]
    omega
  rw [List.getD_eq_getElem?_getD, List.getD_eq_getElem?_getD,
    List.getElem?_eq_getElem hk', List.getElem?_eq_getElem h2,
    List.getElem_dropLast]

/-- The head of a strictly increasing index list bounds every entry. -/
theorem chain_lt_getD_nat (l : List ℕ) (hl : l.Chain' (· < ·)) (a b : ℕ)
    (hab : a < b) (hb : b < l.length) : l.getD a 0 < l.getD b 0 := by
  have hp : l.Pairwise (· < ·) := List.chain'_iff_pairwise.mp hl
  have h := List.pairwise_iff_getElem.mp hp a b (lt_trans hab hb) hb hab
  rw [List.getD_eq_getElem?_getD, List.getElem?_eq_getElem (lt_trans hab hb),
    List.getD_eq_getElem?_getD, List.getElem?_eq_getElem hb]
  exact h

/-- The head of a strictly increasing cons list bounds its last element. -/
theorem chain_lt_head_le_last (j : ℕ) (t : List ℕ) (h : (j :: t).Chain' (· < ·)) :
    j ≤ (j :: t).getLastD 0 := by
  induction t generalizing j with
  | nil => simp [List.getLastD_cons]
  | cons y u ih =>
      obtain ⟨h1, h2⟩ := List.chain'_cons.mp h
      have h3 := ih y h2
      rw [List.getLastD_cons] at h3
      rw [List.getLastD_cons, List.getLastD_cons]
      omega

/-- A nonempty list's getLastD does not depend on the default. -/
theorem getLastD_ne_nil {α : Type} (l : List α) (d d' : α) (h : l ≠ []) :
    l.getLastD d = l.getLastD d' := by
  cases l with
  | nil => exact absurd rfl h
  | cons x t => rw [List.getLastD_cons, List.getLastD_cons]

/-- getD of an append at an offset equal to the first part's length. -/
theorem getD_append_at {α : Type} (l1 l2 : List α) (d : α) (n m : ℕ)
    (h : l1.length = n) : (l1 ++ l2).getD (n + m) d = l2.getD m d := by
  rw [List.getD_append_right l1 l2 d (n + m) (by omega)]
  congr 1
  omega

/-- The final segment of the Coordinate Assigner: when both anchor positions
are located in the relative-length array, the full inclusive span is
returned, every array has the span's length, the index and relative-length
arrays restate the corresponding path entries, and both coordinate arrays
carry the linear interpolation of the span's relative lengths rescaled by
the span endpoints. -/
theorem uacSegment_spec_final (rl : List ℚ) (inds : List ℤ) (p0 p1 : ℚ) (u0 u1 : ℚ × ℚ)
    (s e : ℕ)
    (hs : rl.findIdx? (fun x => npIsClose x p0) = some s)
    (he : rl.findIdx? (fun x => npIsClose x p1) = some e)
    (hse : s < e) (hilen : inds.length = rl.length)
    (hmono : rl.Chain' (· ≤ ·)) :
    ∃ r, uacSegment rl inds p0 p1 u0 u1 true = some r ∧
      r.1.length = e + 1 - s ∧ r.2.1.length = e + 1 - s ∧
      r.2.2.1.length = e + 1 - s ∧ r.2.2.2.length = e + 1 - s ∧
      (∀ k, k < e + 1 - s →
        r.1.getD k 0 = inds.getD (s + k) 0 ∧
        r.2.2.2.getD k 0 = rl.getD (s + k) 0 ∧
        r.2.1.getD k 0 = u0.1 + (u1.1 - u0.1) *
          ((rl.getD (s + k) 0 - rl.getD s 0) / (rl.getD e 0 - rl.getD s 0)) ∧
        r.2.2.1.getD k 0 = u0.2 + (u1.2 - u0.2) *
          ((rl.getD (s + k) 0 - rl.getD s 0) / (rl.getD e 0 - rl.getD s 0))) := by
  have helen : e < rl.length := findIdx_some_lt_length _ _ _ he
  have hielen : e < inds.length := by
    rw [hilen]
    exact helen
  have hplen : (sliceIncl rl s e).length = e + 1 - s := sliceIncl_length rl s e helen
  have hppw := pairwise_sliceIncl rl s e hmono
  have hpne : sliceIncl rl s e ≠ [] := by
    intro hc
    rw [hc, List.length_nil] at hplen
    omega
  have hmin : listMinD (sliceIncl rl s e) = rl.getD s 0 := by
    rw [listMinD_eq_head _ hpne hppw, sliceIncl_getD rl 0 s e 0 (by omega)]
    congr 1
  have hmax : listMaxD (sliceIncl rl s e) = rl.getD e 0 := by
    rw [listMaxD_eq_last _ hpne hppw, hplen,
      sliceIncl_getD rl 0 s e (e + 1 - s - 1) (by omega)]
    congr 1
    omega
  unfold uacSegment
  rw [hs, he]
  refine ⟨_, rfl, sliceIncl_length inds s e hielen, ?_, ?_, hplen, ?_⟩
  · simp only [List.length_map]
    exact hplen
  · simp only [List.length_map]
    exact hplen
  intro k hk
  have hkm : k < ((sliceIncl rl s e).map (fun x => (x - listMinD (sliceIncl rl s e)) /
      (listMaxD (sliceIncl rl s e) - listMinD (sliceIncl rl s e)))).length := by
    rw [List.length_map, hplen]
    exact hk
  have hks : k < (sliceIncl rl s e).length := by
    rw [hplen]
    exact hk
  refine ⟨sliceIncl_getD inds 0 s e k hk, sliceIncl_getD rl 0 s e k hk, ?_, ?_⟩
  · rw [getD_map_lt _ _ k 0 0 hkm, getD_map_lt _ _ k 0 0 hks,
      sliceIncl_getD rl 0 s e k hk, hmin, hmax]
  · rw [getD_map_lt _ _ k 0 0 hkm, getD_map_lt _ _ k 0 0 hks,
      sliceIncl_getD rl 0 s e k hk, hmin, hmax]

/-- A non-final segment of the Coordinate Assigner: as the final one but with
the last entry of every array dropped. -/
theorem uacSegment_spec_mid (rl : List ℚ) (inds : List ℤ) (p0 p1 : ℚ) (u0 u1 : ℚ × ℚ)
    (s e : ℕ)
    (hs : rl.findIdx? (fun x => npIsClose x p0) = some s)
    (he : rl.findIdx? (fun x => npIsClose x p1) = some e)
    (hse : s < e) (hilen : inds.length = rl.length)
    (hmono : rl.Chain' (· ≤ ·)) :
    ∃ r, uacSegment rl inds p0 p1 u0 u1 false = some r ∧
      r.1.length = e - s ∧ r.2.1.length = e - s ∧
      r.2.2.1.length = e - s ∧ r.2.2.2.length = e - s ∧
      (∀ k, k < e - s →
        r.1.getD k 0 = inds.getD (s + k) 0 ∧
        r.2.2.2.getD k 0 = rl.getD (s + k) 0 ∧
        r.2.1.getD k 0 = u0.1 + (u1.1 - u0.1) *
          ((rl.getD (s + k) 0 - rl.getD s 0) / (rl.getD e 0 - rl.getD s 0)) ∧
        r.2.2.1.getD k 0 = u0.2 + (u1.2 - u0.2) *
          ((rl.getD (s + k) 0 - rl.getD s 0) / (rl.getD e 0 - rl.getD s 0))) := by
  obtain ⟨r, hr, l1, l2, l3, l4, hpt⟩ :=
    uacSegment_spec_final rl inds p0 p1 u0 u1 s e hs he hse hilen hmono
  have hfeq : uacSegment rl inds p0 p1 u0 u1 false =
      (uacSegment rl inds p0 p1 u0 u1 true).map
        (fun t => (t.1.dropLast, t.2.1.dropLast, t.2.2.1.dropLast, t.2.2.2.dropLast)) := by
    unfold uacSegment
    rw [hs, he]
    rfl
  refine ⟨(r.1.dropLast, r.2.1.dropLast, r.2.2.1.dropLast, r.2.2.2.dropLast), ?_, ?_, ?_, ?_, ?_, ?_⟩
  · rw [hfeq, hr]
    rfl
  · rw [List.length_dropLast, l1]
    omega
  · rw [List.length_dropLast, l2]
    omega
  · rw [List.length_dropLast, l3]
    omega
  · rw [List.length_dropLast, l4]
    omega
  intro k hk
  obtain ⟨e1, e2, e3, e4⟩ := hpt k (by omega)
  refine ⟨?_, ?_, ?_, ?_⟩
  · rw [getD_dropLast_lt _ k 0 (by rw [l1]; omega)]
    exact e1
  · rw [getD_dropLast_lt _ k 0 (by rw [l4]; omega)]
    exact e2
  · rw [getD_dropLast_lt _ k 0 (by rw [l2]; omega)]
    exact e3
  · rw [getD_dropLast_lt _ k 0 (by rw [l3]; omega)]
    exact e4

/-- The segment loop of the Coordinate Assigner: when every anchor position
is located at a strictly increasing path index and the relative lengths are
non-decreasing overall and strictly increase between consecutive located
indices, the loop succeeds; the concatenated arrays span the located index
range, restate the path and relative-length entries there, and both
coordinate outputs equal the anchor coordinates exactly at every anchor's
located index. -/
theorem uacSegments_spec (rl : List ℚ) (inds : List ℤ) (hil : inds.length = rl.length)
    (hmono : rl.Chain' (· ≤ ·)) :
    ∀ (A : List (ℚ × ℚ × ℚ)) (J : List ℕ),
    2 ≤ A.length → J.length = A.length →
    (∀ k, k < A.length →
      rl.findIdx? (fun x => npIsClose x (A.getD k (0, 0, 0)).1) = some (J.getD k 0)) →
    J.Chain' (· < ·) →
    (∀ k, k + 1 < J.length → rl.getD (J.getD k 0) 0 < rl.getD (J.getD (k + 1) 0) 0) →
    ∃ r, uacSegments rl inds A = some r ∧
      r.1.length = J.getLastD 0 + 1 - J.getD 0 0 ∧
      r.2.1.length = J.getLastD 0 + 1 - J.getD 0 0 ∧
      r.2.2.1.length = J.getLastD 0 + 1 - J.getD 0 0 ∧
      r.2.2.2.length = J.getLastD 0 + 1 - J.getD 0 0 ∧
      ∀ k, k < A.length →
        r.1.getD (J.getD k 0 - J.getD 0 0) 0 = inds.getD (J.getD k 0) 0 ∧
        r.2.2.2.getD (J.getD k 0 - J.getD 0 0) 0 = rl.getD (J.getD k 0) 0 ∧
        r.2.1.getD (J.getD k 0 - J.getD 0 0) 0 = (A.getD k (0, 0, 0)).2.1 ∧
        r.2.2.1.getD (J.getD k 0 - J.getD 0 0) 0 = (A.getD k (0, 0, 0)).2.2 := by
  intro A
  induction A with
  | nil =>
      intro J h2 hJlen hfind hJchain hstrict
      simp at h2
  | cons a0 A' ih =>
      intro J h2 hJlen hfind hJchain hstrict
      obtain ⟨p0, u0⟩ := a0
      cases A' with
      | nil => simp at h2
      | cons a1 rest =>
          obtain ⟨p1, u1⟩ := a1
          cases J with
          | nil =>
              simp only [List.length_nil, List.length_cons] at hJlen
              omega
          | cons j0 J' =>
              cases J' with
              | nil =>
                  simp only [List.length_nil, List.length_cons] at hJlen
                  omega
              | cons j1 Jt =>
                  have hs0 : rl.findIdx? (fun x => npIsClose x p0) = some j0 :=
                    hfind 0 (by simp only [List.length_cons]; omega)
                  have hs1 : rl.findIdx? (fun x => npIsClose x p1) = some j1 :=
                    hfind 1 (by simp only [List.length_cons]; omega)
                  have hj01 : j0 < j1 := (List.chain'_cons.mp hJchain).1
                  have hstrict0 : rl.getD j0 0 < rl.getD j1 0 := by
                    have := hstrict 0 (by simp only [List.length_cons]; omega)
                    simpa using this
                  have hne0 : rl.getD j1 0 - rl.getD j0 0 ≠ 0 := by
                    intro hc
                    rw [sub_eq_zero] at hc
                    rw [hc] at hstrict0
                    exact lt_irrefl _ hstrict0
                  cases rest with
                  | nil =>
                      cases Jt with
                      | cons jx Jx =>
                          simp only [List.length_cons, List.length_nil] at hJlen
                          omega
                      | nil =>
                          obtain ⟨g, hg, n1, n2, n3, n4, hgt⟩ :=
                            uacSegment_spec_final rl inds p0 p1 u0 u1 j0 j1 hs0 hs1 hj01 hil hmono
                          have hEq : uacSegments rl inds [(p0, u0), (p1, u1)] =
                              some (g.1 ++ [], g.2.1 ++ [], g.2.2.1 ++ [], g.2.2.2 ++ []) := by
                            unfold uacSegments
                            rw [show (([] : List (ℚ × ℚ × ℚ)).isEmpty) = true from rfl, hg]
                            rfl
                          simp only [List.append_nil] at hEq
                          refine ⟨g, hEq, ?_, ?_, ?_, ?_, ?_⟩
                          · simpa [List.getLastD_cons] using n1
                          · simpa [List.getLastD_cons] using n2
                          · simpa [List.getLastD_cons] using n3
                          · simpa [List.getLastD_cons] using n4
                          intro k hk
                          simp only [List.length_cons, List.length_nil] at hk
                          match k with
                          | 0 =>
                              obtain ⟨e1, e2, e3, e4⟩ := hgt 0 (by omega)
                              simp only [Nat.add_zero] at e1 e2 e3 e4
                              simp only [List.getD_cons_zero, Nat.sub_self]
                              refine ⟨e1, e2, ?_, ?_⟩
                              · rw [e3]
                                norm_num
                              · rw [e4]
                                norm_num
                          | 1 =>
                              obtain ⟨e1, e2, e3, e4⟩ := hgt (j1 - j0) (by omega)
                              have hix : j0 + (j1 - j0) = j1 := by omega
                              rw [hix] at e1 e2 e3 e4
                              simp only [List.getD_cons_zero, List.getD_cons_succ]
                              refine ⟨e1, e2, ?_, ?_⟩
                              · rw [e3, div_self hne0]
                                ring
                              · rw [e4, div_self hne0]
                                ring
                          | n + 2 => omega
                  | cons a2 rest' =>
                      have hJ'chain : (j1 :: Jt).Chain' (· < ·) :=
                        (List.chain'_cons.mp hJchain).2
                      obtain ⟨t, ht, m1, m2, m3, m4, hmt⟩ :=
                        ih (j1 :: Jt) (by simp only [List.length_cons]; omega)
                          (by
                            simp only [List.length_cons] at hJlen ⊢
                            omega)
                          (by
                            intro k hk
                            have := hfind (k + 1) (by
                              simp only [List.length_cons] at hk ⊢
                              omega)
                            simpa only [List.getD_cons_succ] using this)
                          hJ'chain
                          (by
                            intro k hk
                            have := hstrict (k + 1) (by
                              simp only [List.length_cons] at hk ⊢
                              omega)
                            simpa only [List.getD_cons_succ] using this)
                      obtain ⟨g, hg, n1, n2, n3, n4, hgt⟩ :=
                        uacSegment_spec_mid rl inds p0 p1 u0 u1 j0 j1 hs0 hs1 hj01 hil hmono
                      have hEq : uacSegments rl inds ((p0, u0) :: (p1, u1) :: a2 :: rest') =
                          some (g.1 ++ t.1, g.2.1 ++ t.2.1, g.2.2.1 ++ t.2.2.1,
                            g.2.2.2 ++ t.2.2.2) := by
                        unfold uacSegments
                        rw [List.isEmpty_cons, hg, ht]
                        rfl
                      have hLD : (j0 :: j1 :: Jt).getLastD 0 = (j1 :: Jt).getLastD 0 := by
                        rw [List.getLastD_cons]
                        exact getLastD_ne_nil _ j0 0 (List.cons_ne_nil _ _)
                      have hheadle : j1 ≤ (j1 :: Jt).getLastD 0 :=
                        chain_lt_head_le_last j1 Jt hJ'chain
                      have hJ'head : ∀ k, k < (j1 :: Jt).length → j1 ≤ (j1 :: Jt).getD k 0 := by
                        intro k hk
                        match k with
                        | 0 => exact le_refl j1
                        | k' + 1 =>
                            exact le_of_lt (chain_lt_getD_nat (j1 :: Jt) hJ'chain 0 (k' + 1)
                              (by omega) hk)
                      refine ⟨_, hEq, ?_, ?_, ?_, ?_, ?_⟩
                      · rw [List.length_append, n1, m1]
                        simp only [List.getD_cons_zero, hLD]
                        omega
                      · rw [List.length_append, n2, m2]
                        simp only [List.getD_cons_zero, hLD]
                        omega
                      · rw [List.length_append, n3, m3]
                        simp only [List.getD_cons_zero, hLD]
                        omega
                      · rw [List.length_append, n4, m4]
                        simp only [List.getD_cons_zero, hLD]
                        omega
                      intro k hk
                      match k with
                      | 0 =>
                          obtain ⟨e1, e2, e3, e4⟩ := hgt 0 (by omega)
                          simp only [Nat.add_zero] at e1 e2 e3 e4
                          simp only [List.getD_cons_zero, Nat.sub_self]
                          refine ⟨?_, ?_, ?_, ?_⟩
                          · rw [List.getD_append _ _ _ 0 (by rw [n1]; omega)]
                            exact e1
                          · rw [List.getD_append _ _ _ 0 (by rw [n4]; omega)]
                            exact e2
                          · rw [List.getD_append _ _ _ 0 (by rw [n2]; omega), e3]
                            norm_num
                          · rw [List.getD_append _ _ _ 0 (by rw [n3]; omega), e4]
                            norm_num
                      | k' + 1 =>
                          have hkA' : k' < ((p1, u1) :: a2 :: rest').length := by
                            simp only [List.length_cons] at hk ⊢
                            omega
                          have hkJ' : k' < (j1 :: Jt).length := by
                            simp only [List.length_cons] at hJlen hk ⊢
                            omega
                          obtain ⟨f1, f2, f3, f4⟩ := hmt k' hkA'
                          simp only [List.getD_cons_zero] at f1 f2 f3 f4
                          have hge : j1 ≤ (j1 :: Jt).getD k' 0 := hJ'head k' hkJ'
                          simp only [List.getD_cons_succ, List.getD_cons_zero]
                          have hpos : (j1 :: Jt).getD k' 0 - j0 =
                              (j1 - j0) + ((j1 :: Jt).getD k' 0 - j1) := by
                            omega
                          rw [hpos]
                          refine ⟨?_, ?_, ?_, ?_⟩
                          · rw [getD_append_at g.1 t.1 0 (j1 - j0) _ n1]
                            exact f1
                          · rw [getD_append_at g.2.2.2 t.2.2.2 0 (j1 - j0) _ n4]
                            exact f2
                          · rw [getD_append_at g.2.1 t.2.1 0 (j1 - j0) _ n2]
                            exact f3
                          · rw [getD_append_at g.2.2.1 t.2.2.1 0 (j1 - j0) _ n3]
                            exact f4

/-- C5 (amended): when every anchor position is located by np.isclose at a
strictly increasing path index (first match), the relative lengths are
non-decreasing and strictly increase between consecutive located indices,
and the index array parallels the relative-length array, the Coordinate
Assigner succeeds and its output at each anchor's LOCATED index equals that
anchor's 2D coordinate exactly (both components, exact rational
arithmetic); the output also restates the path index and relative length
there. At a vertex whose relative-length value merely equals the anchor
position exactly, without being the first np.isclose match, exactness can
fail (see the counterexample). -/
theorem C5_uac_anchor_exact (path : PPath) (pts : List ℚ) (uacs : List (ℚ × ℚ))
    (J : List ℕ)
    (hpu : pts.length = uacs.length)
    (h2 : 2 ≤ pts.length)
    (hJ : J.length = pts.length)
    (hfind : ∀ k, k < pts.length →
      path.relative_lengths.findIdx? (fun x => npIsClose x (pts.getD k 0)) =
        some (J.getD k 0))
    (hJchain : J.Chain' (· < ·))
    (hstrict : ∀ k, k + 1 < J.length →
      path.relative_lengths.getD (J.getD k 0) 0 <
        path.relative_lengths.getD (J.getD (k + 1) 0) 0)
    (hmono : path.relative_lengths.Chain' (· ≤ ·))
    (hil : path.inds.length = path.relative_lengths.length) :
    ∃ out, compute_uacs_polyline path pts uacs = some out ∧
      ∀ k, k < pts.length →
        out.inds.getD (J.getD k 0 - J.getD 0 0) 0 = path.inds.getD (J.getD k 0) 0 ∧
        out.relative_lengths.getD (J.getD k 0 - J.getD 0 0) 0 =
          path.relative_lengths.getD (J.getD k 0) 0 ∧
        out.alpha.getD (J.getD k 0 - J.getD 0 0) 0 = (uacs.getD k (0, 0)).1 ∧
        out.beta.getD (J.getD k 0 - J.getD 0 0) 0 = (uacs.getD k (0, 0)).2 := by
  have hAlen : (pts.zip uacs).length = pts.length := by
    rw [List.length_zip, hpu, min_self]
  have hfindA : ∀ k, k < (pts.zip uacs).length →
      path.relative_lengths.findIdx?
        (fun x => npIsClose x ((pts.zip uacs).getD k (0, 0, 0)).1) = some (J.getD k 0) := by
    intro k hk
    have hky : k < pts.length := by
      rw [hAlen] at hk
      exact hk
    have hz := getD_zip_poly pts uacs k 0 (0, 0) hky (by rw [← hpu]; exact hky)
    rw [hz]
    exact hfind k hky
  obtain ⟨r, hr, l1, l2, l3, l4, hpt⟩ :=
    uacSegments_spec path.relative_lengths path.inds hil hmono (pts.zip uacs) J
      (by rw [hAlen]; exact h2) (by rw [hAlen]; exact hJ) hfindA hJchain hstrict
  rcases hz : pts.zip uacs with - | ⟨x0, - | ⟨x1, At⟩⟩
  · rw [hz, List.length_nil] at hAlen
    omega
  · rw [hz] at hAlen
    simp only [List.length_cons, List.length_nil] at hAlen
    omega
  have hrx : uacSegments path.relative_lengths path.inds (x0 :: x1 :: At) = some r := by
    rw [← hz]
    exact hr
  have hEq : compute_uacs_polyline path pts uacs =
      some ⟨r.1, r.2.2.2, r.2.1, r.2.2.1⟩ := by
    unfold compute_uacs_polyline
    rw [hz]
    show (uacSegments path.relative_lengths path.inds (x0 :: x1 :: At)).map
        (fun q => (⟨q.1, q.2.2.2, q.2.1, q.2.2.1⟩ : UACPathL)) =
      some (⟨r.1, r.2.2.2, r.2.1, r.2.2.1⟩ : UACPathL)
    rw [hrx]
    rfl
  refine ⟨⟨r.1, r.2.2.2, r.2.1, r.2.2.1⟩, hEq, ?_⟩
  intro k hk
  obtain ⟨f1, f2, f3, f4⟩ := hpt k (by rw [hAlen]; exact hk)
  have hz2 := getD_zip_poly pts uacs k 0 (0, 0) hk (by rw [← hpu]; exact hk)
  rw [hz2] at f3 f4
  exact ⟨f1, f2, f3, f4⟩

/-- Witness for the amended C5 theorem: a three-vertex path with relative
lengths 0, 1/2, 1, anchors at positions 0 and 1 with coordinates (2,3) and
(4,5); the anchors are located at path indices 0 and 2 and the output there
is exactly the anchor coordinates. -/
theorem C5_witness :
    ∃ out, compute_uacs_polyline ⟨[10, 11, 12], [0, 1/2, 1]⟩ [0, 1] [(2, 3), (4, 5)] =
        some out ∧
      ∀ k, k < ([0, 1] : List ℚ).length →
        out.inds.getD (([0, 2] : List ℕ).getD k 0 - ([0, 2] : List ℕ).getD 0 0) 0 =
          (PPath.mk [10, 11, 12] [0, 1/2, 1]).inds.getD (([0, 2] : List ℕ).getD k 0) 0 ∧
        out.relative_lengths.getD
            (([0, 2] : List ℕ).getD k 0 - ([0, 2] : List ℕ).getD 0 0) 0 =
          (PPath.mk [10, 11, 12] [0, 1/2, 1]).relative_lengths.getD
            (([0, 2] : List ℕ).getD k 0) 0 ∧
        out.alpha.getD (([0, 2] : List ℕ).getD k 0 - ([0, 2] : List ℕ).getD 0 0) 0 =
          (([(2, 3), (4, 5)] : List (ℚ × ℚ)).getD k (0, 0)).1 ∧
        out.beta.getD (([0, 2] : List ℕ).getD k 0 - ([0, 2] : List ℕ).getD 0 0) 0 =
          (([(2, 3), (4, 5)] : List (ℚ × ℚ)).getD k (0, 0)).2 :=
  C5_uac_anchor_exact ⟨[10, 11, 12], [0, 1/2, 1]⟩ [0, 1] [(2, 3), (4, 5)] [0, 2]
    rfl (by decide) rfl
    (by
      intro k hk
      match k with
      | 0 => norm_num [List.findIdx?_cons, npIsClose]
      | 1 => norm_num [List.findIdx?_cons, npIsClose, abs_neg, abs_le]
      | n + 2 => simp at hk)
    (by norm_num [List.chain'_cons])
    (by
      intro k hk
      match k with
      | 0 => norm_num
      | n + 1 =>
          simp only [List.length_cons, List.length_nil] at hk
          omega)
    (by norm_num [List.chain'_cons])
    rfl

/-- Counterexample to C5 as stated: with relative lengths
0, 1/1000000000, 1/2, 1 and strictly increasing anchors 1/1000000000 and 1,
np.isclose matches the first anchor at index 0 (|0 - 1e-9| is within the
default tolerance), so the span starts there; the vertex at index 1, whose
relative-length value equals the anchor position exactly, receives the
interpolated value 1/100000000 instead of the anchor's coordinate 0. -/
theorem C5_counterexample_tolerance_shift :
    ∃ out, compute_uacs_polyline ⟨[0, 1, 2, 3], [0, 1/1000000000, 1/2, 1]⟩
        [1/1000000000, 1] [(0, 0), (10, 10)] = some out ∧
      out.relative_lengths.getD 1 0 = 1/1000000000 ∧
      ¬ (out.alpha.getD 1 0 = 0) := by
  have hsl1 : sliceIncl ([0, 1/1000000000, 1/2, 1] : List ℚ) 0 3 =
      ([0, 1/1000000000, 1/2, 1] : List ℚ) := rfl
  have hsl2 : sliceIncl ([0, 1, 2, 3] : List ℤ) 0 3 = ([0, 1, 2, 3] : List ℤ) := rfl
  have ha1 : |(1 : ℚ)/1000000000| = 1/1000000000 := abs_of_nonneg (by norm_num)
  have ha2 : |(499999999 : ℚ)/1000000000| = 499999999/1000000000 := abs_of_nonneg (by norm_num)
  have ha3 : |(999999999 : ℚ)/1000000000| = 999999999/1000000000 := abs_of_nonneg (by norm_num)
  have ha4 : |(1 : ℚ)/2| = 1/2 := abs_of_nonneg (by norm_num)
  have heval : compute_uacs_polyline ⟨[0, 1, 2, 3], [0, 1/1000000000, 1/2, 1]⟩
      [1/1000000000, 1] [(0, 0), (10, 10)] =
      some ⟨[0, 1, 2, 3], [0, 1/1000000000, 1/2, 1],
        [0, 1/100000000, 5, 10], [0, 1/100000000, 5, 10]⟩ := by
    norm_num [compute_uacs_polyline, uacSegments, uacSegment, npIsClose,
      List.findIdx?_cons, hsl1, hsl2, listMinD, listMaxD, min_def, max_def,
      List.zip_cons_cons, ha1, ha2, ha3, ha4]
  refine ⟨_, heval, by norm_num, by norm_num⟩

/-- headD of an append with a nonempty first part. -/
theorem headD_append_left {α : Type} (A B : List α) (d : α) (h : A ≠ []) :
    (A ++ B).headD d = A.headD d := by
  cases A with
  | nil => exact absurd rfl h
  | cons x t => rfl

/-- getLastD of an append with a nonempty second part. -/
theorem getLastD_append_right {α : Type} (A B : List α) (d : α) (h : B ≠ []) :
    (A ++ B).getLastD d = B.getLastD d := by
  induction A with
  | nil => rfl
  | cons x t ih =>
      rw [List.cons_append, List.getLastD_cons,
        getLastD_ne_nil (t ++ B) x d (by
          intro hc
          exact h (List.append_eq_nil.mp hc).2)]
      exact ih

/-- headI on integer lists is headD with default 0. -/
theorem headI_eq_headD (l : List ℤ) : l.headI = l.headD 0 := by
  cases l with
  | nil => rfl
  | cons x t => rfl

/-- headD of a nonempty list is a member. -/
theorem headD_mem {α : Type} (l : List α) (d : α) (h : l ≠ []) : l.headD d ∈ l := by
  cases l with
  | nil => exact absurd rfl h
  | cons x t => exact List.mem_cons_self _ _

/-- A nonempty list splits into its dropLast and its last element. -/
theorem arc_decomp {α : Type} (l : List α) (d : α) (h : l ≠ []) :
    l.dropLast ++ [l.getLastD d] = l := by
  have h1 := List.dropLast_append_getLast h
  have h2 : l.getLastD d = l.getLast h := by
    rw [List.getLastD_eq_getLast?, List.getLast?_eq_getLast l h]
    rfl
  rw [h2]
  exact h1

/-- The first vertex of an arc with at least two vertices survives
dropLast. -/
theorem headD_mem_dropLast (l : List ℤ) (h : 2 ≤ l.length) :
    l.headD 0 ∈ l.dropLast := by
  match l, h with
  | x :: y :: t, _ =>
      show x ∈ (x :: y :: t).dropLast
      rw [List.dropLast_cons₂]
      exact List.mem_cons_self _ _

/-- A nonempty list is its head consed onto its tail. -/
theorem headD_cons_tail {α : Type} (l : List α) (d : α) (h : l ≠ []) :
    l.headD d :: l.tail = l := by
  cases l with
  | nil => exact absurd rfl h
  | cons x t => rfl

/-- getLastD of a reversed list is its headD. -/
theorem getLastD_reverse {α : Type} (l : List α) (d : α) :
    (l.reverse).getLastD d = l.headD d := by
  cases l with
  | nil => rfl
  | cons x t =>
      rw [List.reverse_cons, List.getLastD_concat]
      rfl

/-- headD of a reversed list is its getLastD. -/
theorem headD_reverse {α : Type} (l : List α) (d : α) :
    (l.reverse).headD d = l.getLastD d := by
  have := getLastD_reverse l.reverse d
  rw [List.reverse_reverse] at this
  rw [← this]

/-- map commutes with eraseIdx. -/
theorem map_eraseIdx' {α β : Type} (f : α → β) (l : List α) (i : ℕ) :
    (l.eraseIdx i).map f = (l.map f).eraseIdx i := by
  induction l generalizing i with
  | nil => rfl
  | cons x t ih =>
      cases i with
      | zero => rfl
      | succ j =>
          simp only [List.eraseIdx_cons_succ, List.map_cons, ih]

/-- Forall₂ is stable under erasing the same index on both sides. -/
theorem forall2_eraseIdx {α β : Type} (R : α → β → Prop) :
    ∀ (l1 : List α) (l2 : List β) (i : ℕ), List.Forall₂ R l1 l2 →
      List.Forall₂ R (l1.eraseIdx i) (l2.eraseIdx i) := by
  intro l1
  induction l1 with
  | nil =>
      intro l2 i h
      cases h
      exact List.Forall₂.nil
  | cons x t ih =>
      intro l2 i h
      cases h with
      | cons hxy htail =>
          cases i with
          | zero => exact htail
          | succ j =>
              simp only [List.eraseIdx_cons_succ]
              exact List.Forall₂.cons hxy (ih _ j htail)

/-- A right member of a Forall₂ has a related left member. -/
theorem forall2_mem_right {α β : Type} (R : α → β → Prop) :
    ∀ (l1 : List α) (l2 : List β), List.Forall₂ R l1 l2 →
      ∀ b ∈ l2, ∃ x ∈ l1, R x b := by
  intro l1
  induction l1 with
  | nil =>
      intro l2 h b hb
      cases h
      simp at hb
  | cons x t ih =>
      intro l2 h b hb
      cases h with
      | cons hxy htail =>
          rcases List.mem_cons.mp hb with hb1 | hb2
          · exact ⟨x, List.mem_cons_self _ _, hb1 ▸ hxy⟩
          · obtain ⟨y, hy1, hy2⟩ := ih _ htail b hb2
            exact ⟨y, List.mem_cons_of_mem _ hy1, hy2⟩

/-- Index access through a Forall₂. -/
theorem forall2_getD {α β : Type} (R : α → β → Prop) (d1 : α) (d2 : β) :
    ∀ (l1 : List α) (l2 : List β) (i : ℕ), List.Forall₂ R l1 l2 →
      i < l1.length → R (l1.getD i d1) (l2.getD i d2) := by
  intro l1
  induction l1 with
  | nil =>
      intro l2 i h hi
      simp at hi
  | cons x t ih =>
      intro l2 i h hi
      cases h with
      | cons hxy htail =>
          cases i with
          | zero => exact hxy
          | succ j =>
              simp only [List.getD_cons_succ]
              exact ih _ j htail (by simp only [List.length_cons] at hi; omega)

/-- Erasing an index and re-consing the erased element permutes back. -/
theorem eraseIdx_cons_perm {α : Type} (l : List α) (d : α) (i : ℕ)
    (hi : i < l.length) : (l.getD i d :: l.eraseIdx i).Perm l := by
  have hsplit : l = l.take i ++ l[i] :: l.drop (i + 1) := by
    rw [← List.drop_eq_getElem_cons hi, List.take_append_drop]
  have herase : l.eraseIdx i = l.take i ++ l.drop (i + 1) :=
    List.eraseIdx_eq_take_drop_succ l i
  have hgd : l.getD i d = l[i] := by
    rw [List.getD_eq_getElem?_getD, List.getElem?_eq_getElem hi]
    rfl
  rw [hgd, herase]
  have h1 : (l[i] :: (l.take i ++ l.drop (i + 1))).Perm
      (l.take i ++ l[i] :: l.drop (i + 1)) := List.perm_middle.symm
  rw [← hsplit] at h1
  exact h1

/-- Rotating an append by the first part's length swaps the parts. -/
theorem rotate_append_length {α : Type} (A B : List α) :
    (A ++ B).rotate A.length = B ++ A := by
  rw [List.rotate_eq_drop_append_take (by
    rw [List.length_append]
    omega), List.drop_left' rfl, List.take_left' rfl]

/-- arcGlue distributes over append. -/
theorem arcGlue_append (X Y : List (List ℤ)) :
    arcGlue (X ++ Y) = arcGlue X ++ arcGlue Y := by
  unfold arcGlue
  rw [List.map_append, List.flatten_append]

/-- dropLast of an arc with at least two vertices is nonempty. -/
theorem dropLast_ne_nil (l : List ℤ) (h : 2 ≤ l.length) : l.dropLast ≠ [] := by
  intro hc
  have := congrArg List.length hc
  rw [List.length_dropLast, List.length_nil] at this
  omega

/-- headD survives dropLast on an arc with at least two vertices. -/
theorem headD_dropLast (l : List ℤ) (h : 2 ≤ l.length) :
    l.dropLast.headD 0 = l.headD 0 := by
  match l, h with
  | x :: y :: t, _ =>
      rw [List.dropLast_cons₂]
      rfl

/-- The glued loop of a cyclic arc list is nonempty. -/
theorem glue_ne (arcs : List (List ℤ)) (h : CyclicArcs arcs) : arcGlue arcs ≠ [] := by
  obtain ⟨hne, hlen, -, -, -⟩ := h
  cases arcs with
  | nil => exact absurd rfl hne
  | cons a t =>
      intro hc
      have h2 : 2 ≤ a.length := hlen a (List.mem_cons_self _ _)
      have : arcGlue (a :: t) = a.dropLast ++ arcGlue t := rfl
      rw [this] at hc
      exact dropLast_ne_nil a h2 (List.append_eq_nil.mp hc).1

/-- The glued loop starts with the first arc's first vertex. -/
theorem glue_headD (arcs : List (List ℤ)) (h : CyclicArcs arcs) :
    (arcGlue arcs).headD 0 = (arcs.headD []).headD 0 := by
  obtain ⟨hne, hlen, -, -, -⟩ := h
  cases arcs with
  | nil => exact absurd rfl hne
  | cons a t =>
      have h2 : 2 ≤ a.length := hlen a (List.mem_cons_self _ _)
      have he : arcGlue (a :: t) = a.dropLast ++ arcGlue t := rfl
      rw [he, headD_append_left _ _ _ (dropLast_ne_nil a h2), headD_dropLast a h2]
      rfl

/-- In a chain of arcs closed off by a wrap element, every arc's last vertex
is the first vertex of a later arc in the chain or of the wrap element. -/
theorem chain_succ_wrap (w : List ℤ) :
    ∀ (a : List ℤ) (rem : List (List ℤ)), (a :: rem).Chain' linked →
      linked ((a :: rem).getLastD []) w →
      ∀ b ∈ a :: rem,
        (∃ c ∈ rem, b.getLastD 0 = c.headD 0) ∨ b.getLastD 0 = w.headD 0 := by
  intro a rem
  induction rem generalizing a with
  | nil =>
      intro hch hw b hb
      rcases List.mem_cons.mp hb with h1 | h2
      · right
        rw [h1]
        exact hw
      · simp at h2
  | cons c0 rem' ih =>
      intro hch hw b hb
      obtain ⟨h1, h2⟩ := List.chain'_cons.mp hch
      rcases List.mem_cons.mp hb with hb1 | hb2
      · left
        refine ⟨c0, List.mem_cons_self _ _, ?_⟩
        rw [hb1]
        exact h1
      · have hlast : (a :: c0 :: rem').getLastD ([] : List ℤ) =
            (c0 :: rem').getLastD [] := by
          rw [List.getLastD_cons]
          exact getLastD_ne_nil _ a [] (List.cons_ne_nil _ _)
        rw [hlast] at hw
        rcases ih c0 h2 hw b hb2 with ⟨c, hc1, hc2⟩ | hr
        · exact Or.inl ⟨c, List.mem_cons_of_mem _ hc1, hc2⟩
        · exact Or.inr hr

/-- Gluing a linked arc chain and appending its final junction equals the
first vertex consed onto the concatenation of all arc tails. -/
theorem shift_identity :
    ∀ (arcs : List (List ℤ)), arcs ≠ [] → arcs.Chain' linked →
      (∀ a ∈ arcs, a ≠ []) →
      arcGlue arcs ++ [(arcs.getLastD []).getLastD 0] =
        (arcs.headD []).headD 0 :: (arcs.map List.tail).flatten := by
  intro arcs
  induction arcs with
  | nil =>
      intro h
      exact absurd rfl h
  | cons a t ih =>
      intro hne hch hnn
      have hna : a ≠ [] := hnn a (List.mem_cons_self _ _)
      cases t with
      | nil =>
          simp only [arcGlue, List.map_cons, List.map_nil, List.flatten_cons,
            List.flatten_nil, List.append_nil, List.getLastD_cons, List.getLastD_nil,
            List.headD_cons]
          rw [arc_decomp a 0 hna, headD_cons_tail a 0 hna]
      | cons b t' =>
          obtain ⟨h1, h2⟩ := List.chain'_cons.mp hch
          have h1' : a.getLastD 0 = b.headD 0 := h1
          have ihh := ih (List.cons_ne_nil _ _) h2
            (fun x hx => hnn x (List.mem_cons_of_mem _ hx))
          have hLlast : ((a :: b :: t').getLastD ([] : List ℤ)) =
              ((b :: t').getLastD []) := by
            rw [List.getLastD_cons]
            exact getLastD_ne_nil _ a [] (List.cons_ne_nil _ _)
          have hGsplit : arcGlue (a :: b :: t') = a.dropLast ++ arcGlue (b :: t') := rfl
          rw [hGsplit, hLlast, List.append_assoc, ihh]
          have hhd : ((b :: t').headD ([] : List ℤ)).headD 0 = a.getLastD 0 := by
            rw [List.headD_cons]
            exact h1'.symm
          rw [hhd]
          have hflat : ((a :: b :: t').map List.tail).flatten =
              a.tail ++ ((b :: t').map List.tail).flatten := rfl
          have hhd2 : ((a :: b :: t').headD ([] : List ℤ)).headD 0 = a.headD 0 := rfl
          rw [hflat, hhd2]
          rw [show (a.getLastD 0 :: ((b :: t').map List.tail).flatten) =
              [a.getLastD 0] ++ ((b :: t').map List.tail).flatten from rfl,
            ← List.append_assoc, arc_decomp a 0 hna]
          conv_lhs => rw [← headD_cons_tail a 0 hna]
          rfl

/-- getLast? of a nonempty list is its getLastD. -/
theorem getLast?_eq_getLastD {α : Type} (l : List α) (d : α) (h : l ≠ []) :
    l.getLast? = some (l.getLastD d) := by
  have hd : l.getLastD d = l.getLast h := by
    rw [List.getLastD_eq_getLast?, List.getLast?_eq_getLast l h]
    rfl
  rw [hd, List.getLast?_eq_getLast l h]

/-- A cyclic arc decomposition may be rotated at any split point. -/
theorem cyclic_swap (A B : List (List ℤ)) (h : CyclicArcs (A ++ B)) :
    CyclicArcs (B ++ A) := by
  obtain ⟨hne, hlen, hch, hw, hnd⟩ := h
  cases A with
  | nil =>
      rw [List.append_nil]
      exact ⟨by simpa using hne, by simpa using hlen, by simpa using hch,
        by simpa using hw, by simpa using hnd⟩
  | cons a0 At =>
      cases B with
      | nil =>
          rw [List.nil_append]
          rw [List.append_nil] at hlen hch hw hnd
          exact ⟨List.cons_ne_nil _ _, hlen, hch, hw, hnd⟩
      | cons b0 Bt =>
          rw [List.chain'_append] at hch
          obtain ⟨chA, chB, hseam⟩ := hch
          have hseamv : linked ((a0 :: At).getLastD []) ((b0 :: Bt).headD []) := by
            refine hseam _ ?_ _ ?_
            · rw [getLast?_eq_getLastD (a0 :: At) [] (List.cons_ne_nil _ _)]
              rfl
            · rfl
          have hwv : linked ((b0 :: Bt).getLastD []) ((a0 :: At).headD []) := by
            rw [getLastD_append_right _ _ _ (List.cons_ne_nil _ _),
              headD_append_left _ _ _ (List.cons_ne_nil _ _)] at hw
            exact hw
          refine ⟨by simp, ?_, ?_, ?_, ?_⟩
          · intro x hx
            refine hlen x ?_
            rcases List.mem_append.mp hx with h1 | h1
            · exact List.mem_append.mpr (Or.inr h1)
            · exact List.mem_append.mpr (Or.inl h1)
          · rw [List.chain'_append]
            refine ⟨chB, chA, ?_⟩
            intro x hx y hy
            rw [getLast?_eq_getLastD (b0 :: Bt) [] (List.cons_ne_nil _ _)] at hx
            have hx' : (b0 :: Bt).getLastD [] = x := Option.some.inj hx
            have hy' : a0 = y := Option.some.inj hy
            rw [← hx', ← hy']
            exact hwv
          · rw [getLastD_append_right _ _ _ (List.cons_ne_nil _ _),
              headD_append_left _ _ _ (List.cons_ne_nil _ _)]
            exact hseamv
          · rw [arcGlue_append]
            rw [arcGlue_append] at hnd
            exact (List.perm_append_comm).nodup_iff.mpr hnd

/-- headD of a mapped-reverse arc list. -/
theorem headD_map_rev (l : List (List ℤ)) :
    (l.map List.reverse).headD [] = (l.headD []).reverse := by
  cases l with
  | nil => rfl
  | cons x t => rfl

/-- getLastD of a mapped-reverse arc list. -/
theorem getLastD_map_rev (l : List (List ℤ)) :
    (l.map List.reverse).getLastD [] = (l.getLastD []).reverse := by
  induction l with
  | nil => rfl
  | cons x t ih =>
      cases t with
      | nil => rfl
      | cons y u =>
          have hrhs : ((x :: y :: u).getLastD ([] : List ℤ)) = (y :: u).getLastD [] := by
            rw [List.getLastD_cons]
            exact getLastD_ne_nil (y :: u) x [] (List.cons_ne_nil _ _)
          rw [hrhs, List.map_cons, List.getLastD_cons,
            getLastD_ne_nil _ x.reverse [] (by simp), ih]

/-- Reversing both arcs swaps the linking relation. -/
theorem linked_rev_iff (a b : List ℤ) : linked b.reverse a.reverse ↔ linked a b := by
  unfold linked
  rw [getLastD_reverse, headD_reverse]
  exact eq_comm

/-- The glued loop of the orientation-reversed arc list is the reversed
concatenation of all arc tails. -/
theorem glue_rev_identity (l : List (List ℤ)) :
    arcGlue ((l.map List.reverse).reverse) = ((l.map List.tail).flatten).reverse := by
  unfold arcGlue
  rw [List.map_reverse, List.map_map]
  have hcomp : List.map (List.dropLast ∘ List.reverse) l =
      List.map (List.reverse ∘ List.tail) l :=
    List.map_congr_left (fun a ha => by
      simp only [Function.comp_apply, List.dropLast_reverse])
  rw [hcomp, ← List.map_map, List.reverse_flatten]

/-- The concatenated arc tails of a cyclic decomposition are the glued loop
shifted by one position. -/
theorem tail_flatten_eq (arcs : List (List ℤ)) (h : CyclicArcs arcs) :
    (arcs.map List.tail).flatten =
      (arcGlue arcs).tail ++ [(arcGlue arcs).headD 0] := by
  obtain ⟨hne, hlen, hch, hw, hnd⟩ := h
  have hid := shift_identity arcs hne hch (fun a ha => by
    intro hc
    have := hlen a ha
    rw [hc] at this
    simp at this)
  have hwv : (arcs.getLastD []).getLastD 0 = (arcs.headD []).headD 0 := hw
  have hgne : arcGlue arcs ≠ [] := glue_ne arcs ⟨hne, hlen, hch, hw, hnd⟩
  have hgh : (arcGlue arcs).headD 0 = (arcs.headD []).headD 0 :=
    glue_headD arcs ⟨hne, hlen, hch, hw, hnd⟩
  rw [hwv, ← hgh] at hid
  rw [← headD_cons_tail (arcGlue arcs) 0 hgne, List.cons_append] at hid
  have := (List.cons.injEq _ _ _ _).mp hid
  rw [headD_cons_tail (arcGlue arcs) 0 hgne] at this
  exact this.2.symm

/-- The glued loop of the orientation-reversed arc list is a rotation of the
reversed glued loop. -/
theorem glue_rev_rot (arcs : List (List ℤ)) (h : CyclicArcs arcs) :
    ∃ m, arcGlue ((arcs.map List.reverse).reverse) =
      ((arcGlue arcs).reverse).rotate m := by
  have hgne : arcGlue arcs ≠ [] := glue_ne arcs h
  obtain ⟨h0, tl, hg⟩ : ∃ h0 tl, arcGlue arcs = h0 :: tl := by
    cases hgl : arcGlue arcs with
    | nil => exact absurd hgl hgne
    | cons a b => exact ⟨a, b, rfl⟩
  refine ⟨tl.reverse.length, ?_⟩
  rw [glue_rev_identity, tail_flatten_eq arcs h, hg]
  simp only [List.tail_cons, List.headD_cons]
  rw [List.reverse_append, List.reverse_singleton]
  rw [List.reverse_cons, rotate_append_length]

/-- Reversing the orientation and order of a cyclic arc decomposition gives
a cyclic arc decomposition of the reversed loop. -/
theorem cyclic_rev (arcs : List (List ℤ)) (h : CyclicArcs arcs) :
    CyclicArcs ((arcs.map List.reverse).reverse) := by
  obtain ⟨hne, hlen, hch, hw, hnd⟩ := h
  refine ⟨?_, ?_, ?_, ?_, ?_⟩
  · intro hc
    apply hne
    simpa using hc
  · intro x hx
    rw [List.mem_reverse, List.mem_map] at hx
    obtain ⟨a, ha, hxa⟩ := hx
    rw [← hxa, List.length_reverse]
    exact hlen a ha
  · rw [List.chain'_reverse, List.chain'_map]
    exact List.Chain'.imp (fun a b hab => (linked_rev_iff a b).mpr hab) hch
  · rw [getLastD_reverse, headD_reverse, headD_map_rev, getLastD_map_rev]
    exact (linked_rev_iff (arcs.getLastD []) (arcs.headD [])).mpr hw
  · rw [glue_rev_identity, List.nodup_reverse,
      tail_flatten_eq arcs ⟨hne, hlen, hch, hw, hnd⟩]
    have hgne : arcGlue arcs ≠ [] := glue_ne arcs ⟨hne, hlen, hch, hw, hnd⟩
    have hthis : ((arcGlue arcs).headD 0 :: (arcGlue arcs).tail).Nodup := by
      rw [headD_cons_tail (arcGlue arcs) 0 hgne]
      exact hnd
    exact (List.perm_append_comm).nodup_iff.mpr hthis

/-- The stitcher loop on a consumed arc prefix and matching remaining
segments: it succeeds with exactly the remaining-segment count as fuel and
returns the glued loop of the full cyclic decomposition. -/
theorem stitch_run :
    ∀ (rem : List (List ℤ)) (done : List (List ℤ)) (acc : BSeg) (rest : List BSeg),
      CyclicArcs (done ++ rem) → done ≠ [] →
      acc.inds = chainGlue done →
      MatchUp rest rem →
      ∃ r, stitchLoop rest.length acc rest = some r ∧
        r.inds = arcGlue (done ++ rem) := by
  intro rem
  induction rem with
  | nil =>
      intro done acc rest hcyc hdne hacc hmu
      rw [List.append_nil] at hcyc
      obtain ⟨arcs2, hf, hperm⟩ := hmu
      have harcs2 : arcs2 = [] := List.perm_nil.mp hperm
      subst harcs2
      cases rest with
      | cons s rs =>
          have := List.Forall₂.length_eq hf
          simp at this
      | nil =>
          refine ⟨closeDedup acc, rfl, ?_⟩
          rw [List.append_nil]
          have hgned : arcGlue done ≠ [] := glue_ne done hcyc
          have hghead := glue_headD done hcyc
          obtain ⟨hne, hlen, hch, hw, hnd⟩ := hcyc
          have hw' : (done.getLastD ([] : List ℤ)).getLastD 0 =
              (done.headD []).headD 0 := hw
          have hcond : acc.inds.headI = acc.lastV := by
            show acc.inds.headI = acc.inds.getLastD 0
            rw [hacc]
            unfold chainGlue
            rw [List.getLastD_concat, headI_eq_headD,
              headD_append_left _ _ _ hgned, hghead]
            exact hw'.symm
          show (closeDedup acc).inds = arcGlue done
          unfold closeDedup
          rw [if_pos hcond]
          show acc.inds.dropLast = arcGlue done
          rw [hacc]
          show (chainGlue done).dropLast = arcGlue done
          unfold chainGlue
          exact List.dropLast_concat
  | cons a rem' ih =>
      intro done acc rest hcyc hdne hacc hmu
      obtain ⟨arcs2, hf, hperm⟩ := hmu
      obtain ⟨hne, hlen, hch, hw, hnd⟩ := hcyc
      obtain ⟨d0, dt, hdeq⟩ : ∃ d0 dt, done = d0 :: dt := by
        cases done with
        | nil => exact absurd rfl hdne
        | cons d0 dt => exact ⟨d0, dt, rfl⟩
      have hamem : a ∈ done ++ a :: rem' :=
        List.mem_append.mpr (Or.inr (List.mem_cons_self _ _))
      have hlena : 2 ≤ a.length := hlen a hamem
      have hna : a ≠ [] := by
        intro hc
        rw [hc] at hlena
        simp at hlena
      have hnd' : ((done ++ a :: rem').map List.dropLast).flatten.Nodup := hnd
      have hPW : ((done ++ a :: rem').map List.dropLast).Pairwise List.Disjoint :=
        (List.nodup_join.mp hnd').2
      have hdisj1 : ∀ b ∈ rem', List.Disjoint a.dropLast b.dropLast := by
        intro b hb
        have hsub : ((a :: rem').map List.dropLast).Pairwise List.Disjoint := by
          refine hPW.sublist ?_
          rw [List.map_append]
          exact List.sublist_append_right _ _
        rw [List.map_cons] at hsub
        exact (List.pairwise_cons.mp hsub).1 b.dropLast (List.mem_map_of_mem _ hb)
      have hdisj2 : List.Disjoint (done.headD []).dropLast a.dropLast := by
        rw [hdeq] at hPW ⊢
        rw [List.cons_append, List.map_cons] at hPW
        show List.Disjoint d0.dropLast a.dropLast
        refine (List.pairwise_cons.mp hPW).1 a.dropLast ?_
        refine List.mem_map_of_mem _ ?_
        exact List.mem_append.mpr (Or.inr (List.mem_cons_self _ _))
      have hvmem : a.headD 0 ∈ a.dropLast := headD_mem_dropLast a hlena
      obtain ⟨chD, chS, hseam⟩ := List.chain'_append.mp hch
      have hseamv : (done.getLastD ([] : List ℤ)).getLastD 0 = a.headD 0 := by
        refine hseam _ ?_ _ ?_
        · rw [getLast?_eq_getLastD done [] hdne]
          rfl
        · rfl
      have hwS : linked ((a :: rem').getLastD []) (done.headD []) := by
        rw [getLastD_append_right _ _ _ (List.cons_ne_nil _ _),
          headD_append_left _ _ _ hdne] at hw
        exact hw
      have hnotin : ∀ b ∈ rem', a.headD 0 ∉ b := by
        intro b hb hvb
        have hblen : 2 ≤ b.length := hlen b
          (List.mem_append.mpr (Or.inr (List.mem_cons_of_mem _ hb)))
        have hbne : b ≠ [] := by
          intro hc
          rw [hc] at hblen
          simp at hblen
        rw [← arc_decomp b 0 hbne] at hvb
        rcases List.mem_append.mp hvb with h1 | h1
        · exact hdisj1 b hb hvmem h1
        · have hveq : a.headD 0 = b.getLastD 0 := by simpa using h1
          rcases chain_succ_wrap (done.headD []) a rem' chS hwS b
              (List.mem_cons_of_mem _ hb) with ⟨c, hc1, hc2⟩ | hr
          · have hclen : 2 ≤ c.length := hlen c
              (List.mem_append.mpr (Or.inr (List.mem_cons_of_mem _ hc1)))
            have hvc : a.headD 0 ∈ c.dropLast := by
              rw [hveq, hc2]
              exact headD_mem_dropLast c hclen
            exact hdisj1 c hc1 hvmem hvc
          · have hd0mem : done.headD [] ∈ done ++ a :: rem' :=
              List.mem_append.mpr (Or.inl (headD_mem done [] hdne))
            have hd0len : 2 ≤ (done.headD []).length := hlen _ hd0mem
            have hvc : a.headD 0 ∈ (done.headD []).dropLast := by
              rw [hveq, hr]
              exact headD_mem_dropLast _ hd0len
            exact hdisj2 hvc hvmem
      have hlastne : a.getLastD 0 ≠ a.headD 0 := by
        intro hc
        rcases chain_succ_wrap (done.headD []) a rem' chS hwS a
            (List.mem_cons_self _ _) with ⟨c, hc1, hc2⟩ | hr
        · have hclen : 2 ≤ c.length := hlen c
            (List.mem_append.mpr (Or.inr (List.mem_cons_of_mem _ hc1)))
          have hvc : a.headD 0 ∈ c.dropLast := by
            rw [← hc, hc2]
            exact headD_mem_dropLast c hclen
          exact hdisj1 c hc1 hvmem hvc
        · have hd0mem : done.headD [] ∈ done ++ a :: rem' :=
            List.mem_append.mpr (Or.inl (headD_mem done [] hdne))
          have hd0len : 2 ≤ (done.headD []).length := hlen _ hd0mem
          have hvc : a.headD 0 ∈ (done.headD []).dropLast := by
            rw [← hc, hr]
            exact headD_mem_dropLast _ hd0len
          exact hdisj2 hvc hvmem
      have haccl : acc.lastV = a.headD 0 := by
        show acc.inds.getLastD 0 = a.headD 0
        rw [hacc]
        show (chainGlue done).getLastD 0 = a.headD 0
        unfold chainGlue
        rw [List.getLastD_concat]
        exact hseamv
      have hamem2 : a ∈ arcs2 := hperm.mem_iff.mpr (List.mem_cons_self _ _)
      obtain ⟨xi, hxi1, hxi2⟩ := forall2_mem_right OrientOf _ _ hf a hamem2
      rw [List.mem_map] at hxi1
      obtain ⟨s0, hs0r, hs0e⟩ := hxi1
      have hvs0 : a.headD 0 ∈ s0.inds := by
        have hva : a.headD 0 ∈ a := (List.dropLast_sublist a).subset hvmem
        rw [hs0e]
        rcases hxi2 with h1 | h1
        · rw [h1]
          exact hva
        · rw [h1, List.mem_reverse]
          exact hva
      have hfindne : rest.findIdx? (fun s => decide (acc.lastV ∈ s.inds)) ≠ none := by
        intro hc
        rw [List.findIdx?_eq_none_iff] at hc
        have hd := hc s0 hs0r
        simp only [decide_eq_false_iff_not] at hd
        rw [haccl] at hd
        exact hd hvs0
      obtain ⟨i, hifound⟩ : ∃ i,
          rest.findIdx? (fun s => decide (acc.lastV ∈ s.inds)) = some i := by
        cases hfx : rest.findIdx? (fun s => decide (acc.lastV ∈ s.inds)) with
        | none => exact absurd hfx hfindne
        | some j => exact ⟨j, rfl⟩
      obtain ⟨hilt, hpi, -⟩ := List.findIdx?_eq_some_iff_getElem.mp hifound
      have hgetD : rest.getD i default = rest[i] := by
        rw [List.getD_eq_getElem?_getD, List.getElem?_eq_getElem hilt]
        rfl
      have hvi : a.headD 0 ∈ (rest.getD i default).inds := by
        rw [hgetD]
        have hmem := of_decide_eq_true hpi
        rwa [haccl] at hmem
      have hleneq : rest.length = arcs2.length := by
        have := List.Forall₂.length_eq hf
        rwa [List.length_map] at this
      have hpart : OrientOf ((rest.map BSeg.inds).getD i []) (arcs2.getD i []) :=
        forall2_getD OrientOf [] [] _ _ i hf (by rw [List.length_map]; exact hilt)
      have hmapgetD : (rest.map BSeg.inds).getD i [] = (rest.getD i default).inds :=
        getD_map_lt BSeg.inds rest i [] default hilt
      rw [hmapgetD] at hpart
      have hia : i < arcs2.length := by
        rw [← hleneq]
        exact hilt
      have hbmem : arcs2.getD i [] ∈ a :: rem' := by
        refine hperm.mem_iff.mp ?_
        rw [List.getD_eq_getElem?_getD, List.getElem?_eq_getElem hia]
        simp only [Option.getD_some]
        exact List.getElem_mem _
      have hba : arcs2.getD i [] = a := by
        rcases List.mem_cons.mp hbmem with h1 | h1
        · exact h1
        · exfalso
          have hvb : a.headD 0 ∈ arcs2.getD i [] := by
            rcases hpart with h2 | h2
            · rw [← h2]
              exact hvi
            · rw [← List.mem_reverse, ← h2]
              exact hvi
          exact hnotin _ h1 hvb
      rw [hba] at hpart
      have hsfinal : (if (rest.getD i default).lastV = acc.lastV
          then (rest.getD i default).rev else rest.getD i default).inds = a := by
        rcases hpart with h1 | h1
        · rw [if_neg ?_]
          · exact h1
          · intro hc
            have hl : (rest.getD i default).lastV = a.getLastD 0 := by
              show (rest.getD i default).inds.getLastD 0 = a.getLastD 0
              rw [h1]
            rw [hl, haccl] at hc
            exact hlastne hc
        · have hl : (rest.getD i default).lastV = a.headD 0 := by
            show (rest.getD i default).inds.getLastD 0 = a.headD 0
            rw [h1, getLastD_reverse]
          rw [if_pos (by rw [hl, haccl])]
          show (rest.getD i default).inds.reverse = a
          rw [h1, List.reverse_reverse]
      have hstep : stitchStep acc rest = some
          (appendDrop acc (if (rest.getD i default).lastV = acc.lastV
              then (rest.getD i default).rev else rest.getD i default),
            rest.eraseIdx i) := by
        unfold stitchStep
        rw [hifound]
      have hacc' : (appendDrop acc (if (rest.getD i default).lastV = acc.lastV
          then (rest.getD i default).rev else rest.getD i default)).inds =
          chainGlue (done ++ [a]) := by
        show acc.inds ++ (if (rest.getD i default).lastV = acc.lastV
          then (rest.getD i default).rev else rest.getD i default).inds.tail =
          chainGlue (done ++ [a])
        rw [hsfinal, hacc]
        unfold chainGlue
        rw [arcGlue_append, List.getLastD_concat]
        rw [show arcGlue [a] = a.dropLast from by simp [arcGlue]]
        rw [show ((done.getLastD ([] : List ℤ)).getLastD 0) = a.headD 0 from hseamv]
        rw [List.append_assoc, List.append_assoc]
        congr 1
        rw [show ([a.headD 0] ++ a.tail) = a.headD 0 :: a.tail from rfl,
          headD_cons_tail a 0 hna, arc_decomp a 0 hna]
      have hmu' : MatchUp (rest.eraseIdx i) rem' := by
        refine ⟨arcs2.eraseIdx i, ?_, ?_⟩
        · have hfe := forall2_eraseIdx OrientOf _ _ i hf
          rwa [← map_eraseIdx'] at hfe
        · have hcp := eraseIdx_cons_perm arcs2 [] i hia
          rw [hba] at hcp
          exact (hcp.trans hperm).cons_inv
      have hassoc : (done ++ [a]) ++ rem' = done ++ a :: rem' := by
        rw [List.append_assoc]
        rfl
      have hcyc' : CyclicArcs ((done ++ [a]) ++ rem') := by
        rw [hassoc]
        exact ⟨hne, hlen, hch, hw, hnd⟩
      have hrlen : rest.length = rem'.length + 1 := by
        rw [hleneq, hperm.length_eq]
        rfl
      have herlen : (rest.eraseIdx i).length = rem'.length := by
        rw [List.length_eraseIdx, if_pos hilt, hrlen]
        omega
      obtain ⟨r, hrun, hrinds⟩ := ih (done ++ [a])
        (appendDrop acc (if (rest.getD i default).lastV = acc.lastV
          then (rest.getD i default).rev else rest.getD i default))
        (rest.eraseIdx i) hcyc' (by simp) hacc' hmu'
      obtain ⟨s1, rs1, hrsteq⟩ : ∃ s1 rs1, rest = s1 :: rs1 := by
        cases rest with
        | nil => simp at hrlen
        | cons s1 rs1 => exact ⟨s1, rs1, rfl⟩
      refine ⟨r, ?_, ?_⟩
      · rw [hrsteq]
        have hred : stitchLoop (s1 :: rs1).length acc (s1 :: rs1) =
            (match stitchStep acc (s1 :: rs1) with
              | none => none
              | some (a2, r2) => stitchLoop rs1.length a2 r2) := rfl
        rw [hred, ← hrsteq, hstep]
        show stitchLoop rs1.length
            (appendDrop acc (if (rest.getD i default).lastV = acc.lastV
              then (rest.getD i default).rev else rest.getD i default))
            (rest.eraseIdx i) = some r
        have hlen1 : rs1.length = (rest.eraseIdx i).length := by
          rw [herlen]
          have hx : rest.length = rs1.length + 1 := by
            rw [hrsteq]
            rfl
          omega
        rw [hlen1]
        exact hrun
      · rw [hrinds, hassoc]

/-- Orientation matching is preserved when the arcs are all reversed. -/
theorem forall2_orient_rev :
    ∀ (xs ys : List (List ℤ)), List.Forall₂ OrientOf xs ys →
      List.Forall₂ OrientOf xs (ys.map List.reverse) := by
  intro xs ys h
  induction h with
  | nil => exact List.Forall₂.nil
  | cons hxy htail ihh =>
      refine List.Forall₂.cons ?_ ihh
      rcases hxy with h1 | h1
      · refine Or.inr ?_
        rw [h1, List.reverse_reverse]
      · exact Or.inl h1

/-- The stitcher on any input carrying a cyclic arc decomposition returns
the glued loop up to rotation and direction. -/
theorem stitch_canonical (arcs : List (List ℤ)) (segs : List BSeg)
    (hcyc : CyclicArcs arcs) (hmatch : MatchUp segs arcs) (hne : segs ≠ []) :
    ∃ r, concatenate_submesh_boundaries segs = some r ∧
      ((∃ m, r.inds = (arcGlue arcs).rotate m) ∨
        (∃ m, r.inds = ((arcGlue arcs).reverse).rotate m)) := by
  obtain ⟨s0, rest, hseq⟩ : ∃ s0 rest, segs = s0 :: rest := by
    cases segs with
    | nil => exact absurd rfl hne
    | cons s0 rest => exact ⟨s0, rest, rfl⟩
  obtain ⟨arcs2, hf, hperm⟩ := hmatch
  rw [hseq, List.map_cons] at hf
  obtain ⟨b, arcs2', hxb, hrest, harcs2eq⟩ := List.forall₂_cons_left_iff.mp hf
  subst harcs2eq
  have hbmem : b ∈ arcs := hperm.mem_iff.mp (List.mem_cons_self _ _)
  have hblen : 2 ≤ b.length := hcyc.2.1 b hbmem
  have hbne : b ≠ [] := by
    intro hc
    rw [hc] at hblen
    simp at hblen
  obtain ⟨L1, L2, hsplit⟩ := List.append_of_mem hbmem
  have hperm' : arcs2'.Perm (L2 ++ L1) := by
    have h1 : (b :: arcs2').Perm (b :: (L1 ++ L2)) := by
      rw [hsplit] at hperm
      exact hperm.trans List.perm_middle
    exact h1.cons_inv.trans List.perm_append_comm
  rcases hxb with hfor | hrev
  · -- the first segment carries its arc forwards
    have hc1 : CyclicArcs (b :: (L2 ++ L1)) := by
      have hsw := cyclic_swap L1 (b :: L2) (by rw [← hsplit]; exact hcyc)
      rwa [List.cons_append] at hsw
    obtain ⟨r, hr, hrinds⟩ := stitch_run (L2 ++ L1) [b] s0 rest hc1 (by simp)
      (by
        rw [hfor]
        show b = chainGlue [b]
        unfold chainGlue
        rw [show arcGlue [b] = b.dropLast from by simp [arcGlue],
          show (([b] : List (List ℤ)).getLastD []) = b from rfl,
          arc_decomp b 0 hbne])
      ⟨arcs2', hrest, hperm'⟩
    refine ⟨r, ?_, Or.inl ⟨(arcGlue L1).length, ?_⟩⟩
    · rw [hseq]
      exact hr
    · rw [hrinds, hsplit]
      rw [show arcGlue (L1 ++ b :: L2) = arcGlue L1 ++ arcGlue (b :: L2) from
        arcGlue_append L1 (b :: L2)]
      rw [rotate_append_length]
      have e2 : arcGlue (b :: L2) = arcGlue [b] ++ arcGlue L2 := arcGlue_append [b] L2
      rw [arcGlue_append, arcGlue_append, e2, List.append_assoc]
  · -- the first segment carries its arc reversed: run on the reversed cycle
    have hcarcs : ((arcs.map List.reverse).reverse) =
        ((L2.map List.reverse).reverse) ++
          b.reverse :: ((L1.map List.reverse).reverse) := by
      rw [hsplit, List.map_append, List.map_cons, List.reverse_append,
        List.reverse_cons, List.append_assoc]
      rfl
    have hcyc2 : CyclicArcs (((L2.map List.reverse).reverse) ++
        b.reverse :: ((L1.map List.reverse).reverse)) := by
      rw [← hcarcs]
      exact cyclic_rev arcs hcyc
    have hc1 : CyclicArcs (b.reverse ::
        (((L1.map List.reverse).reverse) ++ ((L2.map List.reverse).reverse))) := by
      have hsw := cyclic_swap _ _ hcyc2
      rwa [List.cons_append] at hsw
    have hmu0 : MatchUp rest
        (((L1.map List.reverse).reverse) ++ ((L2.map List.reverse).reverse)) := by
      refine ⟨arcs2'.map List.reverse, forall2_orient_rev _ _ hrest, ?_⟩
      refine (hperm'.map _).trans ?_
      rw [List.map_append]
      refine (List.perm_append_comm).trans ?_
      exact List.Perm.append (List.reverse_perm _).symm (List.reverse_perm _).symm
    obtain ⟨r, hr, hrinds⟩ := stitch_run
      (((L1.map List.reverse).reverse) ++ ((L2.map List.reverse).reverse))
      [b.reverse] s0 rest hc1 (by simp)
      (by
        rw [hrev]
        show b.reverse = chainGlue [b.reverse]
        unfold chainGlue
        rw [show arcGlue [b.reverse] = b.reverse.dropLast from by simp [arcGlue],
          show (([b.reverse] : List (List ℤ)).getLastD []) = b.reverse from rfl,
          arc_decomp b.reverse 0 (by simpa using hbne)])
      hmu0
    obtain ⟨m0, hm0⟩ := glue_rev_rot arcs hcyc
    refine ⟨r, ?_, Or.inr
      ⟨m0 + (arcGlue ((L2.map List.reverse).reverse)).length, ?_⟩⟩
    · rw [hseq]
      exact hr
    · rw [hrinds]
      have e1 : arcGlue ([b.reverse] ++
          (((L1.map List.reverse).reverse) ++ ((L2.map List.reverse).reverse))) =
          arcGlue (b.reverse :: ((L1.map List.reverse).reverse)) ++
            arcGlue ((L2.map List.reverse).reverse) := by
        rw [show ((b.reverse :: ((L1.map List.reverse).reverse)) : List (List ℤ)) =
          [b.reverse] ++ ((L1.map List.reverse).reverse) from rfl]
        rw [arcGlue_append, arcGlue_append, arcGlue_append, List.append_assoc]
      have e2 : arcGlue ((arcs.map List.reverse).reverse) =
          arcGlue ((L2.map List.reverse).reverse) ++
            arcGlue (b.reverse :: ((L1.map List.reverse).reverse)) := by
        rw [hcarcs, arcGlue_append]
      rw [e1, ← List.rotate_rotate, ← hm0, e2, rotate_append_length]

/-- Forall₂ is stable under appending one related pair. -/
theorem forall2_snoc {α β : Type} (R : α → β → Prop) :
    ∀ (l1 : List α) (l2 : List β) (x : α) (y : β), List.Forall₂ R l1 l2 → R x y →
      List.Forall₂ R (l1 ++ [x]) (l2 ++ [y]) := by
  intro l1
  induction l1 with
  | nil =>
      intro l2 x y h hxy
      cases h
      exact List.Forall₂.cons hxy List.Forall₂.nil
  | cons a t ih =>
      intro l2 x y h hxy
      cases h with
      | cons hab htail => exact List.Forall₂.cons hab (ih _ x y htail hxy)

/-- Forall₂ is stable under reversing both sides. -/
theorem forall2_rev {α β : Type} (R : α → β → Prop) :
    ∀ (l1 : List α) (l2 : List β), List.Forall₂ R l1 l2 →
      List.Forall₂ R l1.reverse l2.reverse := by
  intro l1 l2 h
  induction h with
  | nil => exact List.Forall₂.nil
  | cons hxy htail ihh =>
      rw [List.reverse_cons, List.reverse_cons]
      exact forall2_snoc R _ _ _ _ ihh hxy

/-- Rotating back to the original list. -/
theorem rot_cancel {α : Type} (g : List α) (n1 : ℕ) :
    (g.rotate n1).rotate (g.length - n1 % g.length) = g := by
  cases g with
  | nil => simp
  | cons x t =>
      rw [List.rotate_rotate]
      have hpos : 0 < (x :: t).length := by simp
      have h2 := Nat.div_add_mod n1 (x :: t).length
      have h3 := Nat.mod_lt n1 hpos
      have hX : n1 + ((x :: t).length - n1 % (x :: t).length) =
          (x :: t).length * (n1 / (x :: t).length + 1) := by
        rw [Nat.mul_add, Nat.mul_one]
        omega
      rw [hX, List.rotate_length_mul]

/-- Any two rotations of a list differ by a rotation. -/
theorem rot_diff {α : Type} (g : List α) (n1 n2 : ℕ) :
    ∃ n, g.rotate n2 = (g.rotate n1).rotate n := by
  refine ⟨(g.length - n1 % g.length) + n2, ?_⟩
  rw [← List.rotate_rotate, rot_cancel]

/-- C4: for every set of coordinate-path segments forming a single closed
loop (a cyclic arc decomposition carried by the segments in any order and
orientation), the Boundary Loop Stitcher succeeds on the original and on the
reversed input segment list, and the two resulting vertex loops agree up to
rotation and direction. -/
theorem C4_stitcher_reverse_invariant (segs : List BSeg) (arcs : List (List ℤ))
    (hcyc : CyclicArcs arcs) (hmatch : MatchUp segs arcs) (hne : segs ≠ []) :
    ∃ r1 r2, concatenate_submesh_boundaries segs = some r1 ∧
      concatenate_submesh_boundaries segs.reverse = some r2 ∧
      ∃ n, r2.inds = r1.inds.rotate n ∨ r2.inds = r1.inds.reverse.rotate n := by
  have hmatch2 : MatchUp segs.reverse arcs := by
    obtain ⟨arcs2, hf, hperm⟩ := hmatch
    refine ⟨arcs2.reverse, ?_, (List.reverse_perm _).trans hperm⟩
    rw [List.map_reverse]
    exact forall2_rev OrientOf _ _ hf
  obtain ⟨r1, h1, hrep1⟩ := stitch_canonical arcs segs hcyc hmatch hne
  obtain ⟨r2, h2, hrep2⟩ := stitch_canonical arcs segs.reverse hcyc hmatch2
    (by
      intro hc
      exact hne (List.reverse_eq_nil_iff.mp hc))
  refine ⟨r1, r2, h1, h2, ?_⟩
  rcases hrep1 with ⟨m1, e1⟩ | ⟨m1, e1⟩ <;> rcases hrep2 with ⟨m2, e2⟩ | ⟨m2, e2⟩
  · obtain ⟨n, hn⟩ := rot_diff (arcGlue arcs) m1 m2
    refine ⟨n, Or.inl ?_⟩
    rw [e2, hn, ← e1]
  · obtain ⟨n, hn⟩ := rot_diff (arcGlue arcs).reverse
      ((arcGlue arcs).length - m1 % (arcGlue arcs).length) m2
    refine ⟨n, Or.inr ?_⟩
    rw [e2, hn, e1, List.reverse_rotate]
  · obtain ⟨n, hn⟩ := rot_diff (arcGlue arcs)
      ((arcGlue arcs).reverse.length - m1 % (arcGlue arcs).reverse.length) m2
    refine ⟨n, Or.inr ?_⟩
    rw [e2, hn, e1, List.reverse_rotate, List.reverse_reverse]
  · obtain ⟨n, hn⟩ := rot_diff (arcGlue arcs).reverse m1 m2
    refine ⟨n, Or.inl ?_⟩
    rw [e2, hn, ← e1]

/-- Witness for C4: the two-arc loop 1-2 / 2-1 handed to the stitcher as two
segments; the original and reversed orders both succeed and produce the same
loop up to rotation and direction. -/
theorem C4_witness :
    ∃ r1 r2, concatenate_submesh_boundaries
        [⟨[1, 2], [0, 0], [0, 0]⟩, ⟨[2, 1], [0, 0], [0, 0]⟩] = some r1 ∧
      concatenate_submesh_boundaries
        ([⟨[1, 2], [0, 0], [0, 0]⟩, ⟨[2, 1], [0, 0], [0, 0]⟩] : List BSeg).reverse =
          some r2 ∧
      ∃ n, r2.inds = r1.inds.rotate n ∨ r2.inds = r1.inds.reverse.rotate n :=
  C4_stitcher_reverse_invariant
    [⟨[1, 2], [0, 0], [0, 0]⟩, ⟨[2, 1], [0, 0], [0, 0]⟩] [[1, 2], [2, 1]]
    ⟨by simp,
      by decide,
      by
        rw [List.chain'_cons]
        exact ⟨rfl, List.chain'_singleton _⟩,
      rfl,
      by decide⟩
    ⟨[[1, 2], [2, 1]],
      List.Forall₂.cons (Or.inl rfl) (List.Forall₂.cons (Or.inl rfl) List.Forall₂.nil),
      List.Perm.refl _⟩
    (by simp)

end ULAC
